import Mathlib

/-!
Shallow embedding of `BufferingBot.py` (puzzlet/BufferingBot).

The source is Python 2 code (`cmp`, bare `except`, byte strings).  Modelling
choices, each noted at the definition it concerns:

* Python byte strings (`str` in Python 2) are modelled as `List Char`
  (`Bytes`), one `Char` per byte; `len` is `List.length`.
* Python floats (timestamps, `timeout`, delays) are modelled as rationals
  `ℚ` with exact arithmetic; the code only adds, subtracts, divides and
  compares them.
* `time.time()` is passed explicitly as a parameter `now : ℚ`; successive
  calls inside one operation are modelled as returning the same value.
* Raising `IndexError` (e.g. `self.heap[0]` on an empty list) is modelled
  with `Except PyError`.
* The heap container is `List Message` with the root at index 0, mirroring
  the Python list used by `heapq`; the `heapq` library functions
  (`heappush`, `heappop`, `_siftdown`, `_siftup`) are transcribed from the
  CPython `heapq` source, with the `while` loops written as fuel-indexed
  structural recursion (the fuel supplied by the wrappers is always enough,
  as established by the lemmas below).
-/

set_option maxHeartbeats 1000000

/- Core marks the `Rat` field operations (and `Nat.gcd`) irreducible, which
blocks elaborator-side evaluation of concrete rational arithmetic in
`decide`/`rfl` proofs; the kernel reduces them regardless.  Restore the
default transparency for this file. -/
attribute [local semireducible] Rat.sub Rat.add Rat.mul Rat.inv Nat.gcd

/-- Python 2 byte strings, one `Char` per byte. -/
abbrev Bytes := List Char

/-- Embedding of `class Message`: `command` (a `str` compared only with
literals), `arguments` (encoded to byte strings at construction), and
`timestamp` (a float, here `ℚ`).  `Message(command, arguments, timestamp)`
with `timestamp=None` is modelled by the caller passing the current time. -/
structure Message where
  command : String
  arguments : List Bytes
  timestamp : ℚ
deriving DecidableEq, Repr, Inhabited

/-- `Message.__lt__`: comparison by timestamp only. -/
def Message.lt (a b : Message) : Bool :=
  decide (a.timestamp < b.timestamp)

section Heapq

variable {α : Type} [Inhabited α]

/-- CPython `heapq._siftdown(heap, startpos, pos)` with `newitem = heap[pos]`
passed explicitly and the `while` loop as fuel recursion.  Each iteration
strictly decreases `pos`, so any `fuel ≥ pos` gives the loop's behaviour
(with fuel `0` forcing `pos = 0`, where the loop guard fails anyway). -/
def siftdownGo (lt : α → α → Bool) (newitem : α) (startpos : Nat) :
    Nat → List α → Nat → List α
  | 0, heap, pos => heap.set pos newitem
  | fuel + 1, heap, pos =>
    if startpos < pos then
      let parentpos := (pos - 1) / 2
      let parent := heap.getD parentpos default
      if lt newitem parent then
        siftdownGo lt newitem startpos fuel (heap.set pos parent) parentpos
      else
        heap.set pos newitem
    else
      heap.set pos newitem

/-- `heapq._siftdown(heap, startpos, pos)`. -/
def siftdown (lt : α → α → Bool) (heap : List α) (startpos pos : Nat) : List α :=
  siftdownGo lt (heap.getD pos default) startpos pos heap pos

/-- `heapq.heappush(heap, item)`: `heap.append(item); _siftdown(heap, 0, len(heap)-1)`. -/
def heappush (lt : α → α → Bool) (heap : List α) (item : α) : List α :=
  siftdown lt (heap ++ [item]) 0 heap.length

/-- CPython `heapq._siftup(heap, pos)` inner `while` loop, with
`newitem = heap[pos]` passed explicitly and fuel recursion; `pos` strictly
increases and stays below `heap.length`, so `fuel = heap.length` suffices
(fuel `0` can only be reached once the child is out of range, where the
real loop would stop as well, so the fuel-0 case is the loop exit). -/
def siftupGo (lt : α → α → Bool) (newitem : α) (startpos : Nat) :
    Nat → List α → Nat → List α
  | 0, heap, pos => siftdownGo lt newitem startpos pos (heap.set pos newitem) pos
  | fuel + 1, heap, pos =>
    let childpos := 2 * pos + 1
    if childpos < heap.length then
      let rightpos := childpos + 1
      let childpos :=
        if rightpos < heap.length &&
            !(lt (heap.getD childpos default) (heap.getD rightpos default)) then
          rightpos
        else childpos
      siftupGo lt newitem startpos fuel (heap.set pos (heap.getD childpos default)) childpos
    else
      siftdownGo lt newitem startpos pos (heap.set pos newitem) pos

/-- `heapq._siftup(heap, pos)` (with `startpos = pos`, as in CPython). -/
def siftup (lt : α → α → Bool) (heap : List α) (pos : Nat) : List α :=
  siftupGo lt (heap.getD pos default) pos heap.length heap pos

/-- `heapq.heappop(heap)`: `None` on the empty list stands for the raised
`IndexError` (the repository's `_pop` guards the call, so this case is
never reached from the buffer code). -/
def heappop (lt : α → α → Bool) (heap : List α) : Option (α × List α) :=
  match heap with
  | [] => none
  | _ :: _ =>
    let lastelt := heap.getLastD default
    let rest := heap.dropLast
    if rest.isEmpty then some (lastelt, [])
    else some (rest.getD 0 default, siftup lt (rest.set 0 lastelt) 0)

end Heapq

/-- Python exceptions that escape the modelled code. -/
inductive PyError where
  | indexError
deriving DecidableEq, Repr

/-- Embedding of `class MessageBuffer`: `timeout` and the `heapq` list. -/
structure MessageBuffer where
  timeout : ℚ
  heap : List Message
deriving DecidableEq, Repr

/-- `MessageBuffer.peek`: `return self.heap[0]`, raising `IndexError` on an
empty heap. -/
def MessageBuffer.peek (b : MessageBuffer) : Except PyError Message :=
  match b.heap with
  | [] => .error .indexError
  | m :: _ => .ok m

/-- `MessageBuffer.push`: `heapq.heappush(self.heap, message)`. -/
def MessageBuffer.push (b : MessageBuffer) (m : Message) : MessageBuffer :=
  ⟨b.timeout, heappush Message.lt b.heap m⟩

/-- `MessageBuffer.is_system_message(self, message)`: takes the message
*text* and tests `message.startswith('--')`. -/
def MessageBuffer.is_system_message (text : Bytes) : Bool :=
  ("--".data).isPrefixOf text

/-- Result of the `while` loop inside `MessageBuffer.purge`:
the remaining heap, the messages popped and dropped (in pop order), the
`line_counts` dict (an insertion-ordered association list, matching the
aggregation the code performs), and — when the tuple unpacking
`target, message = message.arguments` raised — the malformed message that
was pushed back just before the early `return` (`aborted = some it`). -/
structure PurgeState where
  heap : List Message
  removed : List Message
  counts : List (Bytes × Nat)
  aborted : Option Message
deriving DecidableEq, Repr

/-- `line_counts[target] += 1` on a `collections.defaultdict(int)`,
modelled as an insertion-ordered association list. -/
def bumpCount (counts : List (Bytes × Nat)) (target : Bytes) : List (Bytes × Nat) :=
  match counts with
  | [] => [(target, 1)]
  | (t, n) :: rest =>
    if t = target then (t, n + 1) :: rest else (t, n) :: bumpCount rest target

/-- The `while self.heap:` loop of `MessageBuffer.purge`, fuel-indexed by
the heap length (each iteration pops exactly one element, so
`fuel = heap.length` is always enough; with fuel `0` and
`heap.length ≤ fuel` the heap is empty, matching the loop exit). -/
def purgeGo (stale : ℚ) : Nat → List Message → List Message → List (Bytes × Nat) → PurgeState
  | 0, heap, removed, counts => ⟨heap, removed, counts, none⟩
  | fuel + 1, heap, removed, counts =>
    match heap with
    | [] => ⟨heap, removed, counts, none⟩
    | message :: _ =>
      if message.timestamp > stale then ⟨heap, removed, counts, none⟩
      else if message.command ∈ ["join"] then ⟨heap, removed, counts, none⟩
      else
        match heappop Message.lt heap with
        | none => ⟨heap, removed, counts, none⟩
        | some (popped, heap2) =>
          if popped.command ∈ ["privmsg", "privnotice"] then
            match popped.arguments with
            | [target, text] =>
              if MessageBuffer.is_system_message text then
                purgeGo stale fuel heap2 (removed ++ [popped]) counts
              else
                purgeGo stale fuel heap2 (removed ++ [popped]) (bumpCount counts target)
            | _ =>
              ⟨heappush Message.lt heap2 popped, removed, counts, some popped⟩
          else
            purgeGo stale fuel heap2 (removed ++ [popped]) counts

/-- One decimal digit character (arguments are always `< 10`). -/
def digitChar (d : Nat) : Char :=
  match d with
  | 0 => '0' | 1 => '1' | 2 => '2' | 3 => '3' | 4 => '4'
  | 5 => '5' | 6 => '6' | 7 => '7' | 8 => '8' | _ => '9'

/-- Decimal digits of a natural number, fuel-indexed (`fuel = n + 1` suffices). -/
def natDigitsGo : Nat → Nat → List Char → List Char
  | 0, _, acc => acc
  | fuel + 1, n, acc =>
    if n < 10 then digitChar n :: acc
    else natDigitsGo fuel (n / 10) (digitChar (n % 10) :: acc)

/-- Modelled: Python `"%d" % n` for a natural number. -/
def natChars (n : Nat) : List Char :=
  natDigitsGo (n + 1) n []

/-- Six decimal digits, left-padded with zeros (`n < 10^6`). -/
def pad6 (n : Nat) : List Char :=
  let s := natChars n
  List.replicate (6 - s.length) '0' ++ s

/-- Modelled: Python `"%f" % q` — fixed-point notation with 6 fractional
digits.  For the values the program formats (floats exactly representable
with at most six decimals, e.g. the `10.0` timeout) this agrees with
CPython's output; rounding of other rationals is half-up on the exact
value. -/
def formatFloat (q : ℚ) : List Char :=
  let a : ℚ := if q < 0 then -q else q
  let scaled : ℚ := a * 1000000 + 1 / 2
  let n : Nat := (scaled.num.fdiv (scaled.den : Int)).toNat
  (if q < 0 then ['-'] else []) ++ natChars (n / 1000000) ++ ['.'] ++ pad6 (n % 1000000)

/-- The text of the synthetic skip-notice:
`"-- Message lags over %f seconds. Skipping %d line(s).." % (timeout, line_count)`. -/
def noticeText (timeout : ℚ) (count : Nat) : Bytes :=
  "-- Message lags over ".data ++ formatFloat timeout ++
    " seconds. Skipping ".data ++ natChars count ++ " line(s)..".data

/-- The synthetic messages pushed by the `for target, line_count in
line_counts.items():` loop of `purge`; each `Message` is constructed with
`command='privmsg'`, `arguments=(target, text)` and default timestamp
`time.time()` (the parameter `now`). -/
def purgeNotices (now timeout : ℚ) (counts : List (Bytes × Nat)) : List Message :=
  counts.map fun tc => ⟨"privmsg", [tc.1, noticeText timeout tc.2], now⟩

/-- `MessageBuffer.purge(self)` at current time `now`. -/
def MessageBuffer.purge (b : MessageBuffer) (now : ℚ) : MessageBuffer :=
  let r := purgeGo (now - b.timeout) b.heap.length b.heap [] []
  match r.aborted with
  | some _ => ⟨b.timeout, r.heap⟩
  | none =>
    ⟨b.timeout, (purgeNotices now b.timeout r.counts).foldl (heappush Message.lt) r.heap⟩

/-- `MessageBuffer.pop(self)` at current time `now`: `self.peek()` (raising
`IndexError` on an empty heap), the staleness guard, possibly `purge`, then
`self._pop()` (which yields `none` if the heap is empty by then). -/
def MessageBuffer.pop (b : MessageBuffer) (now : ℚ) : Except PyError (Option Message × MessageBuffer) :=
  match b.heap with
  | [] => .error .indexError
  | m :: _ =>
    let b2 := if m.timestamp < now - b.timeout then b.purge now else b
    match heappop Message.lt b2.heap with
    | none => .ok (none, b2)
    | some (x, h) => .ok (some x, ⟨b2.timeout, h⟩)

/-- `MessageBuffer.has_buffer_by_command`. -/
def MessageBuffer.has_buffer_by_command (b : MessageBuffer) (command : String) : Bool :=
  b.heap.any fun m => m.command == command

/-- `BufferingBot.get_delay(self, message)`.  On a `privmsg`, `delay` is
first set to `2`; if the two-element unpacking of `arguments` succeeds it
is overwritten with `0.5 + len(msg)/35.`, otherwise the bare `except`
leaves it at `2`.  Finally the clamp `if delay > 4: delay = 4`. -/
def get_delay (message : Message) : ℚ :=
  let delay : ℚ :=
    if message.command = "privmsg" then
      match message.arguments with
      | [_, msg] => 1 / 2 + (msg.length : ℚ) / 35
      | _ => 2
    else 0
  if delay > 4 then 4 else delay

/-- Modelled: `irclib.is_channel(string)` from the external `irclib`
dependency — true iff the string is nonempty and starts with one of
`#`, `&`, `+`, `!`. -/
def is_channel (s : Bytes) : Bool :=
  match s with
  | [] => false
  | c :: _ => c ∈ ['#', '&', '+', '!']

/-- The `BufferingBot` state touched by the dispatch loop: the message
buffer, `last_tick`, the joined-channel set (`self.channels`, maintained by
the external `ircbot` framework), and the connection's `is_connected`
flag. -/
structure BotState where
  buffer : MessageBuffer
  lastTick : ℚ
  channels : List Bytes
  connected : Bool
deriving DecidableEq, Repr

/-- Result of one tick: the new state, the list of messages handed to
`process_message` (the connection capability is modelled as succeeding, so
each such message is dispatched), and whether `assert False` fired. -/
structure TickResult where
  state : BotState
  dispatched : List Message
  assertFailed : Bool
deriving DecidableEq, Repr

/-- `BufferingBot.pop_buffer(self, buffer)` at current time `now`
(`tick = time.time()`).  The `try/except` around the argument unpacking
returns from the method on failure, as does the channel-membership gate
and the rate-limit check; otherwise `process_message` is called, the
message is popped back off the buffer and compared (`assert False` on
mismatch), and `last_tick` is updated. -/
def pop_buffer (st : BotState) (now : ℚ) : TickResult :=
  match st.buffer.heap with
  | [] => ⟨st, [], false⟩
  | message :: _ =>
    let blocked : Bool :=
      if message.command = "privmsg" then
        match message.arguments with
        | [target, _] => is_channel target && !(st.channels.contains target)
        | _ => true
      else false
    if blocked then ⟨st, [], false⟩
    else if st.lastTick + get_delay message > now then ⟨st, [], false⟩
    else
      match st.buffer.pop now with
      | .error _ => ⟨st, [message], true⟩
      | .ok (popped, b2) =>
        if popped = some message then
          ⟨⟨b2, now, st.channels, st.connected⟩, [message], false⟩
        else
          ⟨⟨b2, st.lastTick, st.channels, st.connected⟩, [message], true⟩

/-- `BufferingBot.flood_control(self)` at current time `now`: reconnect and
return when disconnected, otherwise run `pop_buffer` when the buffer is
nonempty. -/
def flood_control (st : BotState) (now : ℚ) : TickResult :=
  if !st.connected then ⟨st, [], false⟩
  else if st.buffer.heap.length ≠ 0 then pop_buffer st now
  else ⟨st, [], false⟩

/-! ### Specification-side definitions

These are reference definitions used only to *state* the claims; they are
not part of the embedding of the source. -/

/-- Key function for heap ordering: the timestamp.  `Message.lt` compares
exactly these keys. -/
def keyLt {α : Type} (key : α → ℚ) (a b : α) : Bool :=
  decide (key a < key b)

/-- Parent index in the `heapq` array layout. -/
def parIdx (j : Nat) : Nat := (j - 1) / 2

/-- The `heapq` invariant: every non-root entry is at least its parent. -/
def heapOrd {α : Type} [Inhabited α] (key : α → ℚ) (h : List α) : Prop :=
  ∀ j, 0 < j → j < h.length →
    key (h.getD (parIdx j) default) ≤ key (h.getD j default)

/-- Heap elements tagged with their insertion sequence number (a ghost
field: `pairLt`, like `Message.__lt__`, ignores it). -/
def pairLt (p q : Message × Nat) : Bool := Message.lt p.1 q.1

/-- The timestamp key of a tagged element. -/
def pairKey (p : Message × Nat) : ℚ := p.1.timestamp

/-- Messages tagged with insertion sequence numbers `i, i+1, ...`. -/
def indexed : List Message → Nat → List (Message × Nat)
  | [], _ => []
  | m :: rest, i => (m, i) :: indexed rest (i + 1)

/-- A sequence of `heapq` pushes starting from heap `h`. -/
def pushAll (h : List (Message × Nat)) (ps : List (Message × Nat)) : List (Message × Nat) :=
  ps.foldl (heappush pairLt) h

/-- Reference fold computing which element ends at the heap root: the
first-encountered element of strictly smallest key. -/
def selectRoot {α : Type} (key : α → ℚ) : Option α → List α → Option α
  | acc, [] => acc
  | none, x :: rest => selectRoot key (some x) rest
  | some a, x :: rest => selectRoot key (some (if key x < key a then x else a)) rest

/-- A message counted by `purge` toward target `T`'s skip count:
privmsg/privnotice, two arguments, first argument `T`, text not a system
message. -/
def countable (T : Bytes) (m : Message) : Bool :=
  if m.command ∈ ["privmsg", "privnotice"] then
    match m.arguments with
    | [t, x] => if t = T then !(MessageBuffer.is_system_message x) else false
    | _ => false
  else false

/-- Number of messages in `ms` counted toward target `T`. -/
def countFor (T : Bytes) (ms : List Message) : Nat :=
  (ms.filter (countable T)).length

/-- Lookup in the `line_counts` association list, defaulting to `0`. -/
def lookupD (counts : List (Bytes × Nat)) (T : Bytes) : Nat :=
  match counts with
  | [] => 0
  | (t, n) :: rest => if t = T then n else lookupD rest T

/-! ### List index/permutation helpers -/

theorem getD_set_self {α : Type} (l : List α) (i : Nat) (v d : α) (h : i < l.length) :
    (l.set i v).getD i d = v := by
  simp [List.getD_eq_getElem?_getD, List.getElem?_set_self', h]

theorem getD_set_ne {α : Type} (l : List α) (i j : Nat) (v d : α) (h : j ≠ i) :
    (l.set i v).getD j d = l.getD j d := by
  simp [List.getD_eq_getElem?_getD, List.getElem?_set_ne (by omega : i ≠ j)]

theorem getD_append_left {α : Type} (l l2 : List α) (j : Nat) (d : α) (h : j < l.length) :
    (l ++ l2).getD j d = l.getD j d := by
  simp [List.getD_eq_getElem?_getD, List.getElem?_append_left h]

theorem getD_append_length {α : Type} :
    ∀ (l : List α) (x d : α), (l ++ [x]).getD l.length d = x
  | [], _, _ => rfl
  | _ :: t, x, d => getD_append_length t x d

theorem eraseIdx_append_length {α : Type} :
    ∀ (l : List α) (x : α), (l ++ [x]).eraseIdx l.length = l
  | [], _ => rfl
  | a :: t, x => congrArg (a :: ·) (eraseIdx_append_length t x)

theorem eraseIdx_set_same {α : Type} :
    ∀ (l : List α) (p : Nat) (v : α), (l.set p v).eraseIdx p = l.eraseIdx p
  | [], _, _ => rfl
  | _ :: _, 0, _ => rfl
  | a :: t, p + 1, v => congrArg (a :: ·) (eraseIdx_set_same t p v)

theorem dropLast_append_getLastD {α : Type} :
    ∀ (l : List α) (d : α), l ≠ [] → l.dropLast ++ [l.getLastD d] = l
  | [a], d, _ => rfl
  | a :: b :: t, d, _ => by
    have ih := dropLast_append_getLastD (b :: t) d (by simp)
    simpa using congrArg (a :: ·) ih

theorem head?_eq_getD {α : Type} (l : List α) (d : α) (h : l ≠ []) :
    l.head? = some (l.getD 0 d) := by
  cases l with
  | nil => simp at h
  | cons a t => simp [List.getD_eq_getElem?_getD]

theorem parIdx_lt {j : Nat} (h : 0 < j) : parIdx j < j := by
  unfold parIdx; omega

theorem set_perm_cons {α : Type} :
    ∀ (l : List α) (p : Nat) (v : α), p < l.length →
      (l.set p v).Perm (v :: l.eraseIdx p)
  | a :: t, 0, v, _ => by simp
  | a :: t, p + 1, v, h => by
    have ih := set_perm_cons t p v (by simpa using h)
    have h1 : (a :: t).set (p + 1) v = a :: t.set p v := rfl
    have h2 : (a :: t).eraseIdx (p + 1) = a :: t.eraseIdx p := rfl
    rw [h1, h2]
    exact (ih.cons a).trans (List.Perm.swap v a _)

theorem getD_cons_eraseIdx {α : Type} :
    ∀ (l : List α) (p : Nat) (d : α), p < l.length →
      l.Perm (l.getD p d :: l.eraseIdx p)
  | a :: t, 0, d, _ => by simp
  | a :: t, p + 1, d, h => by
    have ih := getD_cons_eraseIdx t p d (by simpa using h)
    have h1 : (a :: t).getD (p + 1) d = t.getD p d := rfl
    have h2 : (a :: t).eraseIdx (p + 1) = a :: t.eraseIdx p := rfl
    rw [h1, h2]
    exact (ih.cons a).trans (List.Perm.swap _ a _)

theorem set_eraseIdx_perm {α : Type} (h : List α) (pos cp : Nat) (d : α)
    (hpos : pos < h.length) (hcp : cp < h.length) (hne : cp ≠ pos) :
    ((h.set pos (h.getD cp d)).eraseIdx cp).Perm (h.eraseIdx pos) := by
  have e1 : (h.set pos (h.getD cp d)).Perm
      (h.getD cp d :: (h.set pos (h.getD cp d)).eraseIdx cp) := by
    have := getD_cons_eraseIdx (h.set pos (h.getD cp d)) cp d (by simpa using hcp)
    rwa [getD_set_ne h pos cp _ d hne] at this
  have e2 : (h.set pos (h.getD cp d)).Perm (h.getD cp d :: h.eraseIdx pos) :=
    set_perm_cons h pos _ hpos
  exact List.Perm.cons_inv (e1.symm.trans e2)

/-! ### Length and permutation facts for the heapq operations -/

section HeapqLemmas

variable {α : Type} [Inhabited α]

theorem siftdownGo_length (lt : α → α → Bool) (x : α) (sp : Nat) :
    ∀ (fuel : Nat) (h : List α) (pos : Nat),
      (siftdownGo lt x sp fuel h pos).length = h.length
  | 0, h, pos => by simp [siftdownGo]
  | fuel + 1, h, pos => by
    rw [siftdownGo]
    dsimp only
    split
    · split
      · rw [siftdownGo_length lt x sp fuel]
        simp
      · simp
    · simp

theorem siftupGo_length (lt : α → α → Bool) (x : α) (sp : Nat) :
    ∀ (fuel : Nat) (h : List α) (pos : Nat),
      (siftupGo lt x sp fuel h pos).length = h.length
  | 0, h, pos => by simp [siftupGo, siftdownGo_length]
  | fuel + 1, h, pos => by
    rw [siftupGo]
    dsimp only
    split
    · rw [siftupGo_length lt x sp fuel]
      simp
    · simp [siftdownGo_length]

theorem heappush_length (lt : α → α → Bool) (h : List α) (x : α) :
    (heappush lt h x).length = h.length + 1 := by
  simp [heappush, siftdown, siftdownGo_length]

theorem heappush_ne_nil (lt : α → α → Bool) (h : List α) (x : α) :
    heappush lt h x ≠ [] := by
  have hl := heappush_length lt h x
  intro he
  rw [he] at hl
  simp at hl

theorem siftdownGo_perm (lt : α → α → Bool) (x : α) (sp : Nat) :
    ∀ (fuel : Nat) (h : List α) (pos : Nat), pos < h.length →
      (siftdownGo lt x sp fuel h pos).Perm (x :: h.eraseIdx pos)
  | 0, h, pos, hp => set_perm_cons h pos x hp
  | fuel + 1, h, pos, hp => by
    rw [siftdownGo]
    dsimp only
    split
    · split
      · next hsp hlt =>
        have hparlt : (pos - 1) / 2 < pos := by omega
        have hpar : (pos - 1) / 2 < (h.set pos (h.getD ((pos - 1) / 2) default)).length := by
          simp; omega
        refine (siftdownGo_perm lt x sp fuel _ _ hpar).trans (.cons x ?_)
        exact set_eraseIdx_perm h pos ((pos - 1) / 2) default hp (by omega) (by omega)
      · exact set_perm_cons h pos x hp
    · exact set_perm_cons h pos x hp

theorem siftupGo_perm (lt : α → α → Bool) (x : α) (sp : Nat) :
    ∀ (fuel : Nat) (h : List α) (pos : Nat), pos < h.length →
      (siftupGo lt x sp fuel h pos).Perm (x :: h.eraseIdx pos)
  | 0, h, pos, hp => by
    rw [siftupGo]
    refine (siftdownGo_perm lt x sp pos _ pos (by simpa using hp)).trans (.cons x ?_)
    rw [eraseIdx_set_same]
  | fuel + 1, h, pos, hp => by
    rw [siftupGo]
    dsimp only
    split
    · next hchild =>
      split
      · next hright =>
        have hcl : 2 * pos + 1 + 1 < h.length :=
          of_decide_eq_true ((Bool.and_eq_true _ _ ▸ hright).1)
        have hpos2 : 2 * pos + 1 + 1 <
            (h.set pos (h.getD (2 * pos + 1 + 1) default)).length := by simp; omega
        refine (siftupGo_perm lt x sp fuel _ _ hpos2).trans (.cons x ?_)
        exact set_eraseIdx_perm h pos (2 * pos + 1 + 1) default hp (by omega) (by omega)
      · have hpos2 : 2 * pos + 1 <
            (h.set pos (h.getD (2 * pos + 1) default)).length := by simp; omega
        refine (siftupGo_perm lt x sp fuel _ _ hpos2).trans (.cons x ?_)
        exact set_eraseIdx_perm h pos (2 * pos + 1) default hp (by omega) (by omega)
    · refine (siftdownGo_perm lt x sp pos _ pos (by simpa using hp)).trans (.cons x ?_)
      rw [eraseIdx_set_same]

theorem heappush_perm (lt : α → α → Bool) (h : List α) (x : α) :
    (heappush lt h x).Perm (x :: h) := by
  unfold heappush siftdown
  rw [getD_append_length]
  have := siftdownGo_perm lt x 0 h.length (h ++ [x]) h.length (by simp)
  refine this.trans (.cons x ?_)
  rw [eraseIdx_append_length]

/-- `heappop` on a nonempty heap returns the root (index 0, the element
`peek` returns) together with a heap that is one shorter and a permutation
of the rest. -/
theorem heappop_cons (lt : α → α → Bool) (m : α) (t : List α) :
    ∃ h2, heappop lt (m :: t) = some (m, h2) ∧ h2.length = t.length ∧ h2.Perm t := by
  cases t with
  | nil => exact ⟨[], rfl, rfl, .refl []⟩
  | cons b t2 =>
    have hpop : heappop lt (m :: b :: t2)
        = some (m, siftup lt ((m :: (b :: t2).dropLast).set 0
            ((m :: b :: t2).getLastD default)) 0) := rfl
    have hset : (m :: (b :: t2).dropLast).set 0 ((m :: b :: t2).getLastD default)
        = (m :: b :: t2).getLastD default :: (b :: t2).dropLast := rfl
    have hfull := dropLast_append_getLastD (m :: b :: t2) default (by simp)
    have h3 : m :: ((b :: t2).dropLast ++ [(m :: b :: t2).getLastD default])
        = m :: b :: t2 := by simpa using hfull
    have hsplit : (b :: t2).dropLast ++ [(m :: b :: t2).getLastD default] = b :: t2 := by
      injection h3
    refine ⟨_, hpop, ?_, ?_⟩
    · rw [hset]
      unfold siftup
      rw [siftupGo_length]
      simp
    · rw [hset]
      unfold siftup
      set hp := (m :: b :: t2).getLastD default :: (b :: t2).dropLast with hhp
      have h0 : 0 < hp.length := by simp [hhp]
      have hperm := siftupGo_perm lt (hp.getD 0 default) 0 hp.length hp 0 h0
      have hgd : hp.getD 0 default = (m :: b :: t2).getLastD default := rfl
      have herase : hp.eraseIdx 0 = (b :: t2).dropLast := rfl
      rw [hgd, herase] at hperm
      refine hperm.trans ?_
      have e := (List.perm_append_singleton ((m :: b :: t2).getLastD default)
        ((b :: t2).dropLast)).symm
      rwa [hsplit] at e

end HeapqLemmas

/-! ### Root characterization for pushes -/

section HeapRoot

variable {α : Type} [Inhabited α]

/-- After a sift-down (as called from `heappush`), the root is either the
new item or the old root. -/
theorem siftdownGo_root_cases (lt : α → α → Bool) (x : α) :
    ∀ (fuel : Nat) (h : List α) (pos : Nat), pos < h.length →
      (siftdownGo lt x 0 fuel h pos).getD 0 default = x ∨
      (siftdownGo lt x 0 fuel h pos).getD 0 default = h.getD 0 default
  | 0, h, pos, hp => by
    rw [siftdownGo]
    by_cases h0 : pos = 0
    · subst h0; left; exact getD_set_self h 0 x default hp
    · right; exact getD_set_ne h pos 0 x default (Ne.symm h0)
  | fuel + 1, h, pos, hp => by
    rw [siftdownGo]
    dsimp only
    split
    · next hsp =>
      split
      · next hlt =>
        have hpar : (pos - 1) / 2 < (h.set pos (h.getD ((pos - 1) / 2) default)).length := by
          simp; omega
        rcases siftdownGo_root_cases lt x fuel _ _ hpar with hc | hc
        · left; exact hc
        · right
          rw [hc, getD_set_ne h pos 0 _ default (by omega)]
      · right
        exact getD_set_ne h pos 0 x default (by omega)
    · next hsp =>
      have h0 : pos = 0 := by omega
      subst h0
      left; exact getD_set_self h 0 x default hp
  termination_by fuel _ _ => fuel

/-- If the new item does not compare below the current root, the root entry
is untouched by the sift-down. -/
theorem siftdownGo_root_of_not_lt (lt : α → α → Bool) (x : α) :
    ∀ (fuel : Nat) (h : List α) (pos : Nat), 0 < pos →
      lt x (h.getD 0 default) = false →
      (siftdownGo lt x 0 fuel h pos).getD 0 default = h.getD 0 default
  | 0, h, pos, hpos, _ => by
    rw [siftdownGo]
    exact getD_set_ne h pos 0 x default (by omega)
  | fuel + 1, h, pos, hpos, hnlt => by
    rw [siftdownGo]
    dsimp only
    split
    · by_cases hpz : (pos - 1) / 2 = 0
      · rw [hpz]
        rw [hnlt]
        simp only [Bool.false_eq_true, if_false]
        exact getD_set_ne h pos 0 x default (by omega)
      · split
        · rw [siftdownGo_root_of_not_lt lt x fuel _ _ (by omega)
            (by rwa [getD_set_ne h pos 0 _ default (by omega)])]
          exact getD_set_ne h pos 0 _ default (by omega)
        · exact getD_set_ne h pos 0 x default (by omega)
    · omega
  termination_by fuel _ _ _ _ => fuel

end HeapRoot

/-! ### The heap invariant is preserved by `heappush` -/

section HeapOrdLemmas

variable {α : Type} [Inhabited α]

omit [Inhabited α] in
theorem keyLt_true {key : α → ℚ} {a b : α} (h : keyLt key a b = true) : key a < key b :=
  of_decide_eq_true h

omit [Inhabited α] in
theorem keyLt_false {key : α → ℚ} {a b : α} (h : ¬ keyLt key a b = true) : key b ≤ key a :=
  le_of_not_lt fun hc => h (decide_eq_true hc)

theorem heapOrd_rootMin (key : α → ℚ) {h : List α} (ho : heapOrd key h) :
    ∀ j, j < h.length → key (h.getD 0 default) ≤ key (h.getD j default) := by
  intro j
  induction j using Nat.strong_induction_on with
  | _ j ih =>
    intro hj
    rcases Nat.eq_zero_or_pos j with rfl | hpos
    · exact le_refl _
    · exact le_trans (ih (parIdx j) (parIdx_lt hpos) (Nat.lt_trans (parIdx_lt hpos) hj))
        (ho j hpos hj)

/-- Writing the new item at position `0` yields an ordered heap, provided
the array was ordered away from position `0` and the new item is below
`0`'s children. -/
theorem set_zero_ordered (key : α → ℚ) (x : α) (h : List α) (hlen : 0 < h.length)
    (i1 : ∀ j, 0 < j → j < h.length → j ≠ 0 →
      key (h.getD (parIdx j) default) ≤ key (h.getD j default))
    (i2 : ∀ j, 0 < j → j < h.length → parIdx j = 0 → key x ≤ key (h.getD j default)) :
    heapOrd key (h.set 0 x) := by
  intro j hj hjl
  rw [List.length_set] at hjl
  rw [getD_set_ne h 0 j x default (by omega)]
  by_cases hpj : parIdx j = 0
  · rw [hpj, getD_set_self h 0 x default hlen]
    exact i2 j hj hjl hpj
  · rw [getD_set_ne h 0 (parIdx j) x default hpj]
    exact i1 j hj hjl (by omega)

theorem siftdownGo_ordered (key : α → ℚ) (x : α) :
    ∀ (fuel : Nat) (h : List α) (pos : Nat), pos ≤ fuel → pos < h.length →
      (∀ j, 0 < j → j < h.length → j ≠ pos →
        key (h.getD (parIdx j) default) ≤ key (h.getD j default)) →
      (∀ j, 0 < j → j < h.length → parIdx j = pos → key x ≤ key (h.getD j default)) →
      (∀ j, 0 < j → j < h.length → parIdx j = pos → 0 < pos →
        key (h.getD (parIdx pos) default) ≤ key (h.getD j default)) →
      heapOrd key (siftdownGo (keyLt key) x 0 fuel h pos)
  | 0, h, pos, hf, hp, i1, i2, _ => by
    have h0 : pos = 0 := by omega
    subst h0
    rw [siftdownGo]
    exact set_zero_ordered key x h hp i1 i2
  | fuel + 1, h, pos, hf, hp, i1, i2, i3 => by
    rw [siftdownGo]
    dsimp only
    split
    · next hsp =>
      have hppar : (pos - 1) / 2 = parIdx pos := rfl
      have hparlt : parIdx pos < pos := parIdx_lt hsp
      split
      · next hlt =>
        rw [hppar] at hlt ⊢
        have hkx : key x < key (h.getD (parIdx pos) default) := keyLt_true hlt
        apply siftdownGo_ordered key x fuel _ (parIdx pos) (by omega)
          (by simp; omega)
        · -- I1 for the swapped array
          intro j hj hjl hjne
          rw [List.length_set] at hjl
          by_cases hje : j = pos
          · subst hje
            rw [getD_set_self h j _ default hp]
            have : parIdx j ≠ j := by omega
            rw [getD_set_ne h j (parIdx j) _ default this]
          · rw [getD_set_ne h pos j _ default hje]
            by_cases hpj : parIdx j = pos
            · rw [hpj, getD_set_self h pos _ default hp]
              exact i3 j hj hjl hpj hsp
            · rw [getD_set_ne h pos (parIdx j) _ default hpj]
              exact i1 j hj hjl hje
        · -- I2 for the swapped array
          intro j hj hjl hpj
          rw [List.length_set] at hjl
          by_cases hje : j = pos
          · subst hje
            rw [getD_set_self h j _ default hp]
            exact le_of_lt hkx
          · rw [getD_set_ne h pos j _ default hje]
            have h1 := i1 j hj hjl hje
            rw [hpj] at h1
            exact le_trans (le_of_lt hkx) h1
        · -- I3 for the swapped array
          intro j hj hjl hpj hpp
          rw [List.length_set] at hjl
          have hg : parIdx (parIdx pos) ≠ pos := by
            have := parIdx_lt hpp
            omega
          rw [getD_set_ne h pos (parIdx (parIdx pos)) _ default hg]
          have hparpar := i1 (parIdx pos) hpp (by omega) (by omega)
          by_cases hje : j = pos
          · subst hje
            rw [getD_set_self h j _ default hp]
            exact hparpar
          · rw [getD_set_ne h pos j _ default hje]
            have h1 := i1 j hj hjl hje
            rw [hpj] at h1
            exact le_trans hparpar h1
      · next hlt =>
        rw [hppar] at hlt
        have hkx : key (h.getD (parIdx pos) default) ≤ key x := keyLt_false hlt
        intro j hj hjl
        rw [List.length_set] at hjl
        by_cases hje : j = pos
        · subst hje
          rw [getD_set_self h j x default hp]
          have hne : parIdx j ≠ j := by omega
          rw [getD_set_ne h j (parIdx j) x default hne]
          exact hkx
        · rw [getD_set_ne h pos j x default hje]
          by_cases hpj : parIdx j = pos
          · rw [hpj, getD_set_self h pos x default hp]
            exact i2 j hj hjl hpj
          · rw [getD_set_ne h pos (parIdx j) x default hpj]
            exact i1 j hj hjl hje
    · next hsp =>
      have h0 : pos = 0 := by omega
      subst h0
      exact set_zero_ordered key x h hp i1 i2
  termination_by fuel _ _ _ _ _ _ _ => fuel

theorem heappush_ordered (key : α → ℚ) {h : List α} (x : α) (ho : heapOrd key h) :
    heapOrd key (heappush (keyLt key) h x) := by
  unfold heappush siftdown
  rw [getD_append_length]
  apply siftdownGo_ordered key x h.length (h ++ [x]) h.length (le_refl _) (by simp)
  · intro j hj hjl hjne
    rw [List.length_append, List.length_singleton] at hjl
    have hjlt : j < h.length := by omega
    rw [getD_append_left h [x] j default hjlt,
      getD_append_left h [x] (parIdx j) default (Nat.lt_trans (parIdx_lt hj) hjlt)]
    exact ho j hj hjlt
  · intro j hj hjl hpj
    exfalso
    unfold parIdx at hpj
    rw [List.length_append, List.length_singleton] at hjl
    omega
  · intro j hj hjl hpj
    exfalso
    unfold parIdx at hpj
    rw [List.length_append, List.length_singleton] at hjl
    omega

/-- If the new item compares below the root, and the root is minimal away
from the hole, the sift-down installs the new item at the root. -/
theorem siftdownGo_root_of_lt (key : α → ℚ) (x : α) :
    ∀ (fuel : Nat) (h : List α) (pos : Nat), pos ≤ fuel → pos < h.length →
      keyLt key x (h.getD 0 default) = true →
      (∀ j, j < h.length → j ≠ pos → key (h.getD 0 default) ≤ key (h.getD j default)) →
      (siftdownGo (keyLt key) x 0 fuel h pos).getD 0 default = x
  | 0, h, pos, hf, hp, _, _ => by
    have h0 : pos = 0 := by omega
    subst h0
    rw [siftdownGo]
    exact getD_set_self h 0 x default hp
  | fuel + 1, h, pos, hf, hp, hklt, hmin => by
    rw [siftdownGo]
    dsimp only
    split
    · next hsp =>
      have hparlt : (pos - 1) / 2 < pos := by omega
      have hparle := hmin ((pos - 1) / 2) (by omega) (by omega)
      split
      · next hlt =>
        apply siftdownGo_root_of_lt key x fuel _ ((pos - 1) / 2) (by omega) (by simp; omega)
        · rwa [getD_set_ne h pos 0 _ default (by omega)]
        · intro j hjl hjne
          rw [List.length_set] at hjl
          rw [getD_set_ne h pos 0 _ default (by omega)]
          by_cases hje : j = pos
          · subst hje
            rw [getD_set_self h j _ default hp]
            exact hparle
          · rw [getD_set_ne h pos j _ default hje]
            exact hmin j hjl hje
      · next hlt =>
        exfalso
        have h1 := keyLt_true hklt
        have h2 := keyLt_false hlt
        exact absurd (lt_of_lt_of_le h1 (le_trans hparle h2)) (lt_irrefl _)
    · next hsp =>
      have h0 : pos = 0 := by omega
      subst h0
      exact getD_set_self h 0 x default hp
  termination_by fuel _ _ _ _ _ _ => fuel

/-- On an ordered nonempty heap, a push leaves the smaller of the new item
and the old root at the root; ties keep the old root. -/
theorem heappush_root (key : α → ℚ) {h : List α} (x : α) (ho : heapOrd key h)
    (hne : h ≠ []) :
    (heappush (keyLt key) h x).getD 0 default =
      (if key x < key (h.getD 0 default) then x else h.getD 0 default) := by
  unfold heappush siftdown
  rw [getD_append_length]
  have hlen : 0 < h.length := List.length_pos.mpr hne
  have hg0 : (h ++ [x]).getD 0 default = h.getD 0 default :=
    getD_append_left h [x] 0 default hlen
  split
  · next hklt =>
    apply siftdownGo_root_of_lt
    · exact le_refl _
    · simp
    · rw [hg0]
      exact decide_eq_true hklt
    · intro j hjl hjne
      rw [List.length_append, List.length_singleton] at hjl
      have hjlt : j < h.length := by omega
      rw [hg0, getD_append_left h [x] j default hjlt]
      exact heapOrd_rootMin key ho j hjlt
  · next hklt =>
    rw [← hg0]
    apply siftdownGo_root_of_not_lt
    · exact hlen
    · rw [hg0]
      exact decide_eq_false hklt

end HeapOrdLemmas

/-! ### Folding pushes -/

section FoldPush

variable {α : Type} [Inhabited α]

theorem heapOrd_nil (key : α → ℚ) : heapOrd key ([] : List α) := by
  intro j _ hjl
  simp at hjl

theorem foldl_heappush_perm (lt : α → α → Bool) :
    ∀ (ms : List α) (h : List α), (ms.foldl (heappush lt) h).Perm (h ++ ms)
  | [], h => by simp
  | x :: rest, h => by
    have ih := foldl_heappush_perm lt rest (heappush lt h x)
    refine ih.trans ?_
    refine ((heappush_perm lt h x).append_right rest).trans ?_
    simpa using (@List.perm_middle _ x h rest).symm

theorem heappush_root_cases (lt : α → α → Bool) (h : List α) (x : α) :
    (heappush lt h x).getD 0 default = x ∨
    (h ≠ [] ∧ (heappush lt h x).getD 0 default = h.getD 0 default) := by
  unfold heappush siftdown
  rw [getD_append_length]
  rcases siftdownGo_root_cases lt x h.length (h ++ [x]) h.length (by simp) with hc | hc
  · left; exact hc
  · cases h with
    | nil => left; simpa using hc
    | cons a t =>
      right
      refine ⟨by simp, ?_⟩
      rw [hc]
      exact getD_append_left _ [x] 0 default (by simp)

theorem foldl_heappush_head (lt : α → α → Bool) :
    ∀ (ms : List α) (h : List α) (m : α),
      (ms.foldl (heappush lt) h).head? = some m → m ∈ ms ∨ h.head? = some m
  | [], _, _ => fun hh => Or.inr hh
  | x :: rest, h, m => fun hh => by
    rcases foldl_heappush_head lt rest (heappush lt h x) m hh with hm | hm
    · left; exact List.mem_cons_of_mem x hm
    · have hnn := heappush_ne_nil lt h x
      rw [head?_eq_getD _ default hnn] at hm
      have hval := Option.some.inj hm
      rcases heappush_root_cases lt h x with hc | ⟨hne, hc⟩
      · left
        rw [← hval, hc]
        exact List.mem_cons_self x rest
      · right
        rw [head?_eq_getD h default hne, ← hval, hc]

theorem foldl_heappush_ordered_head (key : α → ℚ) :
    ∀ (ps : List α) (h : List α), heapOrd key h →
      heapOrd key (ps.foldl (heappush (keyLt key)) h) ∧
      (ps.foldl (heappush (keyLt key)) h).head? = selectRoot key h.head? ps
  | [], h, ho => ⟨ho, by cases hh : h.head? <;> rw [List.foldl_nil, hh] <;> rfl⟩
  | x :: rest, h, ho => by
    have ho2 := heappush_ordered key x ho
    have ih := foldl_heappush_ordered_head key rest (heappush (keyLt key) h x) ho2
    refine ⟨ih.1, ?_⟩
    rw [List.foldl_cons, ih.2]
    cases h with
    | nil =>
      have hpe : heappush (keyLt key) [] x = [x] := rfl
      rw [hpe]
      rfl
    | cons a t =>
      have hnn := heappush_ne_nil (keyLt key) (a :: t) x
      rw [head?_eq_getD _ default hnn,
        heappush_root key x ho (by simp),
        head?_eq_getD (a :: t) default (by simp)]
      rfl

end FoldPush

/-! ### The stable minimum reference fold -/

theorem selectRoot_spec {α : Type} (key : α → ℚ) (idx : α → Nat) :
    ∀ (ps : List α) (a : α),
      (∀ q ∈ ps, idx a < idx q) →
      List.Pairwise (fun p q => idx p < idx q) ps →
      ∃ p, selectRoot key (some a) ps = some p ∧ p ∈ a :: ps ∧
        ∀ q ∈ a :: ps, key p < key q ∨ (key p = key q ∧ idx p ≤ idx q)
  | [], a, _, _ => by
    refine ⟨a, rfl, by simp, ?_⟩
    intro q hq
    simp only [List.mem_singleton] at hq
    subst hq
    right
    exact ⟨rfl, le_refl _⟩
  | x :: rest, a, hidx, hpair => by
    have hxr := (List.pairwise_cons.mp hpair).1
    have hpair2 := (List.pairwise_cons.mp hpair).2
    have hidx2 : ∀ q ∈ rest, idx (if key x < key a then x else a) < idx q := by
      intro q hq
      split
      · exact hxr q hq
      · exact hidx q (List.mem_cons_of_mem x hq)
    obtain ⟨p, hsel, hmem, hmin⟩ :=
      selectRoot_spec key idx rest (if key x < key a then x else a) hidx2 hpair2
    have hxa : idx a < idx x := hidx x (List.mem_cons_self x rest)
    have hpb := hmin _ (List.mem_cons_self _ rest)
    refine ⟨p, hsel, ?_, ?_⟩
    · rcases List.mem_cons.mp hmem with hpb2 | hpr
      · subst hpb2
        split
        · exact List.mem_cons_of_mem a (List.mem_cons_self x rest)
        · exact List.mem_cons_self a _
      · exact List.mem_cons_of_mem a (List.mem_cons_of_mem x hpr)
    · intro q hq
      rcases List.mem_cons.mp hq with hqa | hq2
      · rw [hqa]
        by_cases hxalt : key x < key a
        · rw [if_pos hxalt] at hpb
          rcases hpb with h1 | ⟨h1, _⟩
          · left; exact lt_trans h1 hxalt
          · left; rw [h1]; exact hxalt
        · rw [if_neg hxalt] at hpb
          exact hpb
      rcases List.mem_cons.mp hq2 with hqx | hq3
      · rw [hqx]
        by_cases hxalt : key x < key a
        · rw [if_pos hxalt] at hpb
          exact hpb
        · rw [if_neg hxalt] at hpb
          have hax : key a ≤ key x := le_of_not_lt hxalt
          rcases hpb with h1 | ⟨h1, h2⟩
          · rcases lt_or_eq_of_le hax with h3 | h3
            · left; exact lt_trans h1 h3
            · left; rw [← h3]; exact h1
          · rcases lt_or_eq_of_le hax with h3 | h3
            · left; rw [h1]; exact h3
            · right
              exact ⟨by rw [h1, h3], le_trans h2 (le_of_lt hxa)⟩
      · exact hmin q (List.mem_cons_of_mem _ hq3)

theorem indexed_mem_idx :
    ∀ (ms : List Message) (i : Nat) (q : Message × Nat), q ∈ indexed ms i → i ≤ q.2
  | [], _, q => by simp [indexed]
  | m :: rest, i, q => by
    intro hq
    rw [indexed] at hq
    rcases List.mem_cons.mp hq with rfl | hq2
    · exact le_refl _
    · exact le_trans (by omega) (indexed_mem_idx rest (i + 1) q hq2)

theorem indexed_pairwise :
    ∀ (ms : List Message) (i : Nat),
      List.Pairwise (fun p q : Message × Nat => p.2 < q.2) (indexed ms i)
  | [], i => by simp [indexed]
  | m :: rest, i => by
    rw [indexed]
    refine List.pairwise_cons.mpr ⟨?_, indexed_pairwise rest (i + 1)⟩
    intro q hq
    have := indexed_mem_idx rest (i + 1) q hq
    show i < q.2
    omega

/-! ### The purge loop: counts, protected commands, permutation, abort -/

theorem lookupD_bumpCount_self :
    ∀ (counts : List (Bytes × Nat)) (T : Bytes),
      lookupD (bumpCount counts T) T = lookupD counts T + 1
  | [], T => by simp [bumpCount, lookupD]
  | (t, n) :: rest, T => by
    rw [bumpCount]
    by_cases ht : t = T
    · subst ht
      rw [if_pos rfl]
      rw [lookupD, lookupD, if_pos rfl, if_pos rfl]
    · rw [if_neg ht, lookupD, lookupD, if_neg ht, if_neg ht]
      exact lookupD_bumpCount_self rest T

theorem lookupD_bumpCount_ne :
    ∀ (counts : List (Bytes × Nat)) (T T2 : Bytes), T ≠ T2 →
      lookupD (bumpCount counts T) T2 = lookupD counts T2
  | [], T, T2, hne => by simp [bumpCount, lookupD, hne]
  | (t, n) :: rest, T, T2, hne => by
    rw [bumpCount]
    by_cases ht : t = T
    · subst ht
      rw [if_pos rfl, lookupD, lookupD, if_neg hne, if_neg hne]
    · rw [if_neg ht, lookupD, lookupD]
      by_cases ht2 : t = T2
      · rw [if_pos ht2, if_pos ht2]
      · rw [if_neg ht2, if_neg ht2]
        exact lookupD_bumpCount_ne rest T T2 hne

theorem bumpCount_pos :
    ∀ (counts : List (Bytes × Nat)) (T : Bytes),
      (∀ e ∈ counts, 0 < e.2) → ∀ e ∈ bumpCount counts T, 0 < e.2
  | [], T, _ => by simp [bumpCount]
  | (t, n) :: rest, T, hpos => by
    rw [bumpCount]
    by_cases ht : t = T
    · rw [if_pos ht]
      intro e he
      rcases List.mem_cons.mp he with rfl | he2
      · simp
      · exact hpos e (List.mem_cons_of_mem _ he2)
    · rw [if_neg ht]
      intro e he
      rcases List.mem_cons.mp he with rfl | he2
      · exact hpos _ (List.mem_cons_self _ _)
      · exact bumpCount_pos rest T (fun x hx => hpos x (List.mem_cons_of_mem _ hx)) e he2

theorem bumpCount_keys :
    ∀ (counts : List (Bytes × Nat)) (T : Bytes),
      (bumpCount counts T).map Prod.fst =
        (if T ∈ counts.map Prod.fst then counts.map Prod.fst
          else counts.map Prod.fst ++ [T])
  | [], T => by simp [bumpCount]
  | (t, n) :: rest, T => by
    rw [bumpCount]
    by_cases ht : t = T
    · subst ht
      rw [if_pos rfl]
      have : t ∈ ((t, n) :: rest).map Prod.fst := by simp
      rw [if_pos this]
      simp
    · rw [if_neg ht]
      have hmap : ((t, n) :: bumpCount rest T).map Prod.fst
          = t :: (bumpCount rest T).map Prod.fst := by simp
      rw [hmap, bumpCount_keys rest T]
      by_cases hT : T ∈ rest.map Prod.fst
      · rw [if_pos hT, if_pos (by simp [hT])]
        simp
      · rw [if_neg hT, if_neg (by simp [hT, Ne.symm ht])]
        simp

theorem bumpCount_nodup (counts : List (Bytes × Nat)) (T : Bytes)
    (hnd : (counts.map Prod.fst).Nodup) :
    ((bumpCount counts T).map Prod.fst).Nodup := by
  rw [bumpCount_keys]
  split
  · exact hnd
  · next hT =>
    rw [List.nodup_append]
    exact ⟨hnd, List.nodup_singleton T, by simpa using hT⟩

theorem countFor_append_one (T : Bytes) (ms : List Message) (m : Message) :
    countFor T (ms ++ [m]) = countFor T ms + (if countable T m then 1 else 0) := by
  unfold countFor
  rw [List.filter_append, List.length_append]
  congr 1
  by_cases hc : countable T m = true
  · rw [if_pos hc]
    simp [List.filter_cons, hc]
  · rw [if_neg hc]
    simp [List.filter_cons, hc]

theorem countable_false_of_command (T : Bytes) (m : Message)
    (h : ¬ m.command ∈ ["privmsg", "privnotice"]) : countable T m = false := by
  unfold countable
  rw [if_neg h]

theorem countable_false_of_system (T : Bytes) (m : Message) (target text : Bytes)
    (hargs : m.arguments = [target, text])
    (hsys : MessageBuffer.is_system_message text = true) : countable T m = false := by
  unfold countable
  split
  · rw [hargs]
    dsimp only
    rw [hsys]
    split <;> rfl
  · rfl

theorem countable_of_user (T : Bytes) (m : Message) (target text : Bytes)
    (hcmd : m.command ∈ ["privmsg", "privnotice"])
    (hargs : m.arguments = [target, text])
    (hsys : ¬ MessageBuffer.is_system_message text = true) :
    countable T m = (if target = T then true else false) := by
  unfold countable
  rw [if_pos hcmd, hargs]
  dsimp only
  rw [Bool.not_eq_true] at hsys
  rw [hsys]
  split <;> rfl

/-- The `line_counts` accumulated by the purge loop record, for every
target, exactly the number of removed non-system privmsg/privnotice
messages addressed to it; all entries are positive and keys are unique. -/
theorem purgeGo_counts (stale : ℚ) :
    ∀ (fuel : Nat) (heap removed : List Message) (counts : List (Bytes × Nat)),
      (∀ T, lookupD counts T = countFor T removed) →
      (∀ e ∈ counts, 0 < e.2) →
      ((counts.map Prod.fst).Nodup) →
      (∀ T, lookupD (purgeGo stale fuel heap removed counts).counts T
          = countFor T (purgeGo stale fuel heap removed counts).removed) ∧
      (∀ e ∈ (purgeGo stale fuel heap removed counts).counts, 0 < e.2) ∧
      (((purgeGo stale fuel heap removed counts).counts.map Prod.fst).Nodup) := by
  intro fuel
  induction fuel with
  | zero =>
    intro heap removed counts h1 h2 h3
    exact ⟨h1, h2, h3⟩
  | succ fuel ih =>
    intro heap removed counts h1 h2 h3
    cases heap with
    | nil => rw [purgeGo]; exact ⟨h1, h2, h3⟩
    | cons message t =>
      rw [purgeGo]
      split
      · exact ⟨h1, h2, h3⟩
      · split
        · exact ⟨h1, h2, h3⟩
        · obtain ⟨h2heap, hpop, hlen, hperm⟩ := heappop_cons Message.lt message t
          rw [hpop]
          dsimp only
          split
          · next hfam =>
            split
            · next target text heqargs =>
              split
              · next hsys =>
                apply ih
                · intro T
                  rw [h1 T, countFor_append_one,
                    countable_false_of_system T message target text heqargs hsys]
                  simp
                · exact h2
                · exact h3
              · next hsys =>
                apply ih
                · intro T
                  rw [countFor_append_one,
                    countable_of_user T message target text hfam heqargs hsys]
                  by_cases hT : target = T
                  · subst hT
                    rw [lookupD_bumpCount_self, h1 target]
                    simp
                  · rw [lookupD_bumpCount_ne counts target T hT, h1 T, if_neg hT]
                    simp
                · exact bumpCount_pos counts target h2
                · exact bumpCount_nodup counts target h3
            · exact ⟨h1, h2, h3⟩
          · next hfam =>
            apply ih
            · intro T
              rw [h1 T, countFor_append_one, countable_false_of_command T message hfam]
              simp
            · exact h2
            · exact h3

/-- The purge loop never removes a `join` message. -/
theorem purgeGo_no_join (stale : ℚ) :
    ∀ (fuel : Nat) (heap removed : List Message) (counts : List (Bytes × Nat)),
      (∀ m ∈ removed, m.command ≠ "join") →
      ∀ m ∈ (purgeGo stale fuel heap removed counts).removed, m.command ≠ "join" := by
  intro fuel
  induction fuel with
  | zero => intro heap removed counts h1; exact h1
  | succ fuel ih =>
    intro heap removed counts h1
    cases heap with
    | nil => rw [purgeGo]; exact h1
    | cons message t =>
      rw [purgeGo]
      split
      · exact h1
      · split
        · exact h1
        · next hjoin =>
          have hmj : message.command ≠ "join" := by
            intro hc
            exact hjoin (by simp [hc])
          obtain ⟨h2heap, hpop, hlen, hperm⟩ := heappop_cons Message.lt message t
          rw [hpop]
          dsimp only
          have hrem : ∀ m ∈ removed ++ [message], m.command ≠ "join" := by
            intro m hm
            rcases List.mem_append.mp hm with hm2 | hm2
            · exact h1 m hm2
            · rw [List.mem_singleton.mp hm2]
              exact hmj
          split
          · split
            · split
              · exact ih h2heap (removed ++ [message]) _ hrem
              · exact ih h2heap (removed ++ [message]) _ hrem
            · exact h1
          · exact ih h2heap (removed ++ [message]) _ hrem

/-- Everything the purge loop removes really comes off the queue:
removed messages plus the remaining heap are a permutation of the input
(this also covers the abort case, where the malformed message is pushed
back). -/
theorem purgeGo_perm (stale : ℚ) :
    ∀ (fuel : Nat) (heap removed : List Message) (counts : List (Bytes × Nat)),
      ((purgeGo stale fuel heap removed counts).removed ++
        (purgeGo stale fuel heap removed counts).heap).Perm (removed ++ heap) := by
  intro fuel
  induction fuel with
  | zero => intro heap removed counts; exact .refl _
  | succ fuel ih =>
    intro heap removed counts
    cases heap with
    | nil => rw [purgeGo]
    | cons message t =>
      rw [purgeGo]
      split
      · exact .refl _
      · split
        · exact .refl _
        · obtain ⟨h2heap, hpop, hlen, hperm⟩ := heappop_cons Message.lt message t
          rw [hpop]
          dsimp only
          have hstep : ∀ counts2,
              ((purgeGo stale fuel h2heap (removed ++ [message]) counts2).removed ++
                (purgeGo stale fuel h2heap (removed ++ [message]) counts2).heap).Perm
                (removed ++ message :: t) := by
            intro counts2
            refine (ih h2heap (removed ++ [message]) counts2).trans ?_
            rw [List.append_assoc]
            refine List.Perm.append_left removed ?_
            exact (hperm.cons message)
          split
          · split
            · split
              · exact hstep _
              · exact hstep _
            · refine (List.Perm.append_left removed ?_)
              refine (heappush_perm Message.lt h2heap message).trans ?_
              exact hperm.cons message
          · exact hstep _

/-- When the purge loop has enough fuel (`heap.length` suffices), it either
aborts on a malformed unpack, or leaves a heap that is empty or whose head
is fresh (newer than the cutoff) or a protected `join`. -/
theorem purgeGo_post (stale : ℚ) :
    ∀ (fuel : Nat) (heap removed : List Message) (counts : List (Bytes × Nat)),
      heap.length ≤ fuel →
      (∃ M, (purgeGo stale fuel heap removed counts).aborted = some M) ∨
      (purgeGo stale fuel heap removed counts).heap = [] ∨
      ∃ m t, (purgeGo stale fuel heap removed counts).heap = m :: t ∧
        (m.timestamp > stale ∨ m.command = "join") := by
  intro fuel
  induction fuel with
  | zero =>
    intro heap removed counts hfuel
    right; left
    obtain rfl : heap = [] := List.length_eq_zero.mp (by omega)
    rw [purgeGo]
  | succ fuel ih =>
    intro heap removed counts hfuel
    cases heap with
    | nil => right; left; rw [purgeGo]
    | cons message t =>
      rw [purgeGo]
      split
      · next hts =>
        right; right
        exact ⟨message, t, rfl, Or.inl hts⟩
      · split
        · next hjoin =>
          right; right
          refine ⟨message, t, rfl, Or.inr ?_⟩
          simpa using hjoin
        · obtain ⟨h2heap, hpop, hlen, hperm⟩ := heappop_cons Message.lt message t
          rw [hpop]
          dsimp only
          have hlen2 : h2heap.length ≤ fuel := by
            rw [hlen]
            have := List.length_cons message t ▸ hfuel
            omega
          split
          · split
            · split
              · exact ih h2heap _ _ hlen2
              · exact ih h2heap _ _ hlen2
            · left
              exact ⟨message, rfl⟩
          · exact ih h2heap _ _ hlen2

/-- Characterization of the abort (malformed unpack) case: the aborted
message is a privmsg/privnotice whose argument list does not unpack into
two elements; it is pushed back into the resulting heap unchanged (in
particular with its original timestamp). -/
theorem purgeGo_abort (stale : ℚ) :
    ∀ (fuel : Nat) (heap removed : List Message) (counts : List (Bytes × Nat))
      (M : Message),
      (purgeGo stale fuel heap removed counts).aborted = some M →
      (M.command ∈ ["privmsg", "privnotice"]) ∧
      (∀ target text, M.arguments ≠ [target, text]) ∧
      M ∈ (purgeGo stale fuel heap removed counts).heap := by
  intro fuel
  induction fuel with
  | zero =>
    intro heap removed counts M hab
    exact absurd hab (by rw [purgeGo]; simp)
  | succ fuel ih =>
    intro heap removed counts M hab
    cases heap with
    | nil => exact absurd hab (by rw [purgeGo]; simp)
    | cons message t =>
      rw [purgeGo] at hab ⊢
      revert hab
      split
      · intro hab; exact absurd hab (by simp)
      · split
        · intro hab; exact absurd hab (by simp)
        · obtain ⟨h2heap, hpop, hlen, hperm⟩ := heappop_cons Message.lt message t
          rw [hpop]
          dsimp only
          split
          · next hfam =>
            split
            · next target text heqargs =>
              split
              · exact fun hab => ih h2heap _ _ M hab
              · exact fun hab => ih h2heap _ _ M hab
            · next hnoargs =>
              intro hab
              have hM : message = M := by
                have : some message = some M := hab
                exact Option.some.inj this
              subst hM
              refine ⟨hfam, ?_, ?_⟩
              · intro target text heq
                exact hnoargs target text heq
              · show message ∈ heappush Message.lt h2heap message
                exact (heappush_perm Message.lt h2heap message).mem_iff.mpr
                  (List.mem_cons_self message h2heap)
          · exact fun hab => ih h2heap _ _ M hab

/-! ### From counts to synthetic notices -/

theorem filter_key_eq_nil :
    ∀ (counts : List (Bytes × Nat)) (T : Bytes),
      T ∉ counts.map Prod.fst →
      counts.filter (fun e => decide (e.1 = T)) = []
  | [], T, _ => rfl
  | (t, n) :: rest, T, hT => by
    rw [List.filter_cons]
    have ht : ¬ t = T := by
      intro hc
      exact hT (by simp [hc])
    rw [if_neg (by simpa using ht)]
    exact filter_key_eq_nil rest T (fun hc => hT (by simp; right; simpa using hc))

theorem counts_filter_char :
    ∀ (counts : List (Bytes × Nat)) (T : Bytes),
      (∀ e ∈ counts, 0 < e.2) → ((counts.map Prod.fst).Nodup) →
      counts.filter (fun e => decide (e.1 = T)) =
        (if lookupD counts T = 0 then [] else [(T, lookupD counts T)])
  | [], T, _, _ => by simp [lookupD]
  | (t, n) :: rest, T, hpos, hnd => by
    have hnd2 : (t :: rest.map Prod.fst).Nodup := by simpa using hnd
    have hnotin : t ∉ rest.map Prod.fst := (List.nodup_cons.mp hnd2).1
    have hndrest : (rest.map Prod.fst).Nodup := (List.nodup_cons.mp hnd2).2
    by_cases ht : t = T
    · subst ht
      have hn : 0 < n := hpos (t, n) (List.mem_cons_self _ _)
      have hlook : lookupD ((t, n) :: rest) t = n := by rw [lookupD, if_pos rfl]
      have hrest : rest.filter (fun e => decide (e.1 = t)) = [] :=
        filter_key_eq_nil rest t hnotin
      rw [hlook, List.filter_cons, if_pos (by simp), if_neg (by omega), hrest]
    · have hlook : lookupD ((t, n) :: rest) T = lookupD rest T := by
        rw [lookupD, if_neg ht]
      rw [hlook, List.filter_cons, if_neg (by simpa using ht)]
      exact counts_filter_char rest T
        (fun e he => hpos e (List.mem_cons_of_mem _ he)) hndrest

theorem purgeNotices_filter (now timeout : ℚ) (counts : List (Bytes × Nat)) (T : Bytes) :
    (purgeNotices now timeout counts).filter
        (fun m => decide (m.arguments.getD 0 [] = T)) =
      (counts.filter (fun e => decide (e.1 = T))).map
        (fun tc => ⟨"privmsg", [tc.1, noticeText timeout tc.2], now⟩) := by
  unfold purgeNotices
  rw [List.filter_map]
  rfl

theorem purgeNotices_timestamp (now timeout : ℚ) (counts : List (Bytes × Nat)) :
    ∀ m ∈ purgeNotices now timeout counts, m.timestamp = now := by
  intro m hm
  obtain ⟨tc, _, rfl⟩ := List.mem_map.mp hm
  rfl

/-! ### The purge wrapper -/

theorem purge_eq_of_not_aborted (b : MessageBuffer) (now : ℚ)
    (hab : (purgeGo (now - b.timeout) b.heap.length b.heap [] []).aborted = none) :
    b.purge now = ⟨b.timeout, (purgeNotices now b.timeout
        (purgeGo (now - b.timeout) b.heap.length b.heap [] []).counts).foldl
      (heappush Message.lt) (purgeGo (now - b.timeout) b.heap.length b.heap [] []).heap⟩ := by
  unfold MessageBuffer.purge
  dsimp only
  rw [hab]

theorem purge_eq_of_aborted (b : MessageBuffer) (now : ℚ) (M : Message)
    (hab : (purgeGo (now - b.timeout) b.heap.length b.heap [] []).aborted = some M) :
    b.purge now = ⟨b.timeout, (purgeGo (now - b.timeout) b.heap.length b.heap [] []).heap⟩ := by
  unfold MessageBuffer.purge
  dsimp only
  rw [hab]

/-- A purge whose heap head is already fresh, or a protected `join`, stops
at once and changes nothing. -/
theorem purgeGo_break (stale : ℚ) (fuel : Nat) (m : Message) (t removed : List Message)
    (counts : List (Bytes × Nat)) (hbreak : m.timestamp > stale ∨ m.command = "join") :
    purgeGo stale (fuel + 1) (m :: t) removed counts = ⟨m :: t, removed, counts, none⟩ := by
  rw [purgeGo]
  rcases hbreak with hts | hjoin
  · rw [if_pos hts]
  · by_cases hts : m.timestamp > stale
    · rw [if_pos hts]
    · rw [if_neg hts, if_pos (by simp [hjoin])]

theorem purge_of_break (b : MessageBuffer) (now : ℚ)
    (hhead : ∀ m t, b.heap = m :: t → (m.timestamp > now - b.timeout ∨ m.command = "join")) :
    b.purge now = b := by
  cases hb : b.heap with
  | nil =>
    unfold MessageBuffer.purge
    rw [hb]
    dsimp only
    rw [show purgeGo (now - b.timeout) ([] : List Message).length [] [] [] =
      ⟨[], [], [], none⟩ from rfl]
    cases b
    simp_all [purgeNotices]
  | cons m t =>
    unfold MessageBuffer.purge
    rw [hb]
    dsimp only
    rw [show (m :: t).length = t.length + 1 from rfl,
      purgeGo_break (now - b.timeout) t.length m t [] [] (hhead m t hb)]
    cases b
    simp_all [purgeNotices]

/-! ### Claim theorems -/

/-- Claim C1: for every sequence of push operations on a `MessageQueue`
(modelled as `heapq` pushes, starting from the empty heap, of the messages
tagged with their insertion sequence numbers — a ghost field that
`Message.__lt__` ignores), `peek()` (the heap root) returns the queued
message with the smallest `(timestamp, insertion sequence)` pair; in
particular, among equal timestamps the earlier-pushed message is returned
(deterministic, stable tie-breaking). -/
theorem C1_peek_returns_stable_minimum (ms : List Message) (hne : ms ≠ []) :
    ∃ p : Message × Nat,
      (pushAll [] (indexed ms 0)).head? = some p ∧
      p ∈ indexed ms 0 ∧
      ∀ q ∈ indexed ms 0,
        p.1.timestamp < q.1.timestamp ∨
          (p.1.timestamp = q.1.timestamp ∧ p.2 ≤ q.2) := by
  cases ms with
  | nil => exact absurd rfl hne
  | cons m rest =>
    have hplt : pairLt = keyLt pairKey := rfl
    have hfold := foldl_heappush_ordered_head pairKey (indexed (m :: rest) 0) []
      (heapOrd_nil pairKey)
    obtain ⟨p, hsel, hmem, hmin⟩ := selectRoot_spec pairKey Prod.snd (indexed rest 1) (m, 0)
      (fun q hq => by
        have h2 := indexed_mem_idx rest 1 q hq
        show 0 < q.2
        omega)
      (indexed_pairwise rest 1)
    refine ⟨p, ?_, hmem, fun q hq => hmin q hq⟩
    show ((indexed (m :: rest) 0).foldl (heappush pairLt) []).head? = some p
    rw [hplt, hfold.2]
    exact hsel

/-- Witness for C1 at a concrete push sequence with a timestamp tie:
timestamps 5, 3, 3 — peek returns the *first* message with timestamp 3. -/
theorem C1_witness :
    ∃ p : Message × Nat,
      (pushAll [] (indexed [⟨"a", [], 5⟩, ⟨"b", [], 3⟩, ⟨"c", [], 3⟩] 0)).head? = some p ∧
      p ∈ indexed [⟨"a", [], 5⟩, ⟨"b", [], 3⟩, ⟨"c", [], 3⟩] 0 ∧
      ∀ q ∈ indexed [⟨"a", [], 5⟩, ⟨"b", [], 3⟩, ⟨"c", [], 3⟩] 0,
        p.1.timestamp < q.1.timestamp ∨
          (p.1.timestamp = q.1.timestamp ∧ p.2 ≤ q.2) :=
  C1_peek_returns_stable_minimum [⟨"a", [], 5⟩, ⟨"b", [], 3⟩, ⟨"c", [], 3⟩] (by simp)

/-- The clamp `if delay > 4: delay = 4` is the same as `min delay 4`. -/
theorem clamp_eq_min (a : ℚ) : (if a > 4 then 4 else a) = min a 4 := by
  by_cases h : a > 4
  · rw [if_pos h]
    exact (min_eq_right (le_of_lt h)).symm
  · rw [if_neg h]
    exact (min_eq_left (le_of_not_lt h)).symm

/-- Claim C5: for every well-formed privmsg (argument list of exactly two
elements) with text of `n` bytes, the computed delay is
`min(0.5 + n/35.0, 4.0)`; the delay is monotone in `n` and never exceeds
`4.0`; `n = 350` yields `4.0`. -/
theorem C5_delay_formula (target text target2 text2 : Bytes) (ts ts2 : ℚ) :
    get_delay ⟨"privmsg", [target, text], ts⟩ = min (1 / 2 + (text.length : ℚ) / 35) 4 ∧
    (text.length ≤ text2.length →
      get_delay ⟨"privmsg", [target, text], ts⟩ ≤
        get_delay ⟨"privmsg", [target2, text2], ts2⟩) ∧
    get_delay ⟨"privmsg", [target, text], ts⟩ ≤ 4 ∧
    (text.length = 350 → get_delay ⟨"privmsg", [target, text], ts⟩ = 4) := by
  have key : ∀ (tg tx : Bytes) (t0 : ℚ),
      get_delay ⟨"privmsg", [tg, tx], t0⟩ = min (1 / 2 + (tx.length : ℚ) / 35) 4 := by
    intro tg tx t0
    unfold get_delay
    dsimp only
    rw [if_pos rfl]
    exact clamp_eq_min _
  refine ⟨key target text ts, ?_, ?_, ?_⟩
  · intro hlen
    rw [key, key]
    have hc : ((text.length : ℚ)) ≤ ((text2.length : ℚ)) := by exact_mod_cast hlen
    exact min_le_min (by linarith) (le_refl 4)
  · rw [key]
    exact min_le_right _ _
  · intro h350
    rw [key, h350]
    norm_num

/-- Witness for C5: a two-byte text gives delay `1/2 + 2/35`, and a
350-byte text saturates the clamp at `4`. -/
theorem C5_witness :
    get_delay ⟨"privmsg", [['#', 'a'], ['h', 'i']], 0⟩
      = min (1 / 2 + ((['h', 'i'] : Bytes).length : ℚ) / 35) 4 ∧
    get_delay ⟨"privmsg", [['#', 'a'], List.replicate 350 'x'], 0⟩ = 4 :=
  ⟨(C5_delay_formula ['#', 'a'] ['h', 'i'] [] [] 0 0).1,
    (C5_delay_formula ['#', 'a'] (List.replicate 350 'x') [] [] 0 0).2.2.2
      (List.length_replicate 350 'x')⟩

/-- Counterexample for C9 as stated: a malformed privmsg (empty argument
list) yields delay `2` — the fallback assigned before the `try` block —
not `0`. -/
theorem C9_counterexample :
    get_delay ⟨"privmsg", [], 0⟩ ≠ 0 ∧ get_delay ⟨"privmsg", [], 0⟩ = 2 := by
  constructor
  · decide
  · decide

/-- Claim C9 (amended): for every malformed privmsg (argument list not of
exactly two elements) the delay computation returns `2` (the fallback set
before the `try`) without raising, and `pop_buffer` returns without
dispatching — malformed messages never crash the dispatch loop. -/
theorem C9_amended_malformed_delay (args : List Bytes) (ts : ℚ) (h : args.length ≠ 2) :
    get_delay ⟨"privmsg", args, ts⟩ = 2 ∧
    (∀ (st : BotState) (now : ℚ),
      st.buffer.heap.head? = some ⟨"privmsg", args, ts⟩ →
      pop_buffer st now = ⟨st, [], false⟩) := by
  constructor
  · unfold get_delay
    dsimp only
    rw [if_pos rfl]
    match args, h with
    | [], _ => norm_num
    | [a], _ => norm_num
    | [a, b], h => exact (h rfl).elim
    | a :: b :: c :: rest, _ => norm_num
  · intro st now hhead
    cases hheap : st.buffer.heap with
    | nil => rw [hheap] at hhead; exact absurd hhead (by simp)
    | cons m t =>
      rw [hheap] at hhead
      have hm : m = ⟨"privmsg", args, ts⟩ := by simpa using hhead
      subst hm
      unfold pop_buffer
      rw [hheap]
      dsimp only
      rw [if_pos rfl]
      have hblocked : (match ([] : List Bytes) ++ args with
          | [target, _] => is_channel target && !st.channels.contains target
          | _ => true) = true := by
        match args, h with
        | [], _ => rfl
        | [a], _ => rfl
        | [a, b], h => exact (h rfl).elim
        | a :: b :: c :: rest, _ => rfl
      rw [show (([] : List Bytes) ++ args) = args from rfl] at hblocked
      rw [hblocked, if_pos rfl]

/-- Witness for C9 (amended), at a one-argument privmsg at the head of a
connected bot's buffer. -/
theorem C9_witness :
    get_delay ⟨"privmsg", [['#', 'a']], 0⟩ = 2 ∧
    (∀ (st : BotState) (now : ℚ),
      st.buffer.heap.head? = some ⟨"privmsg", [['#', 'a']], 0⟩ →
      pop_buffer st now = ⟨st, [], false⟩) :=
  C9_amended_malformed_delay [['#', 'a']] 0 (by simp)

/-- Claim C7: purge never removes a message whose command is `join`, no
matter how old it is; and stale messages ordered before a protected `join`
are still removed in the same pass (concrete scenario: a stale privmsg at
timestamp 0 ahead of an even staler-eligible `join` at 50, cutoff 90 — the
privmsg is removed, the `join` survives as the new heap head). -/
theorem C7_join_protected (stale : ℚ) (fuel : Nat) (heap : List Message) :
    ((purgeGo stale fuel heap [] []).removed.filter
        (fun m => decide (m.command = "join"))) = [] ∧
    (purgeGo (90 : ℚ) 2
        [⟨"privmsg", [['#', 'a'], ['x']], 0⟩, ⟨"join", [['#', 'a']], 50⟩] [] []).removed
      = [⟨"privmsg", [['#', 'a'], ['x']], 0⟩] ∧
    (purgeGo (90 : ℚ) 2
        [⟨"privmsg", [['#', 'a'], ['x']], 0⟩, ⟨"join", [['#', 'a']], 50⟩] [] []).heap
      = [⟨"join", [['#', 'a']], 50⟩] := by
  refine ⟨?_, by decide, by decide⟩
  rw [List.filter_eq_nil_iff]
  intro m hm
  simpa using purgeGo_no_join stale fuel heap [] [] (by simp) m hm

/-- Counterexample for C8 as stated: `peek()` on the empty queue raises
`IndexError` instead of returning a not-present indicator. -/
theorem C8_counterexample :
    MessageBuffer.peek ⟨10, []⟩ = .error .indexError ∧
    MessageBuffer.pop ⟨10, []⟩ 0 = .error .indexError := ⟨rfl, rfl⟩

/-- Claim C8 (amended): on the empty queue both `peek()` and `pop()` raise
`IndexError` (pop calls peek before anything else); `pop()` does return
the not-present indicator `None` when the queue becomes empty only during
the purge step inside pop (concrete scenario: a single stale `who` message
is purged away without generating a notice, and `_pop` then returns
`None`). -/
theorem C8_amended_empty_behavior :
    (∀ timeout : ℚ, MessageBuffer.peek ⟨timeout, []⟩ = .error .indexError) ∧
    (∀ timeout now : ℚ, MessageBuffer.pop ⟨timeout, []⟩ now = .error .indexError) ∧
    MessageBuffer.pop ⟨10, [⟨"who", [['x']], 0⟩]⟩ 100 = .ok (none, ⟨10, []⟩) :=
  ⟨fun _ => rfl, fun _ _ => rfl, rfl⟩

/-- Counterexample for C3 as stated: with `timeout = -1`, `purge` is *not*
a no-op — the staleness cutoff `now - timeout` lies in the future, so a
message stamped with the current time is removed (and a skip-notice is
pushed), and `pop`'s guard fires, returning the synthetic notice instead
of the original message. -/
theorem C3_counterexample :
    (purgeGo ((0 : ℚ) - (-1)) 1 [⟨"privmsg", [['#', 'a'], ['x']], 0⟩] [] []).removed
      = [⟨"privmsg", [['#', 'a'], ['x']], 0⟩] ∧
    ((⟨-1, [⟨"privmsg", [['#', 'a'], ['x']], 0⟩]⟩ : MessageBuffer).purge 0).heap
      = [⟨"privmsg", [['#', 'a'], noticeText (-1) 1], 0⟩] ∧
    (⟨-1, [⟨"privmsg", [['#', 'a'], ['x']], 0⟩]⟩ : MessageBuffer).pop 0
      = .ok (some ⟨"privmsg", [['#', 'a'], noticeText (-1) 1], 0⟩, ⟨-1, []⟩) := by
  refine ⟨by decide, by decide, rfl⟩

/-- Claim C3 (amended): a negative `timeout` does not disable purging — it
makes the cutoff `now - timeout` lie in the future, so every non-protected
message with timestamp up to `now` is stale.  For a queue holding one
non-system privmsg with timestamp at most `now`, `purge` replaces it with
a skip-notice and `pop` triggers the purge (the head's timestamp is below
`now - timeout`) and returns the notice. -/
theorem C3_amended_negative_timeout_purges (timeout now ts : ℚ) (target text : Bytes)
    (hneg : timeout < 0) (hts : ts ≤ now)
    (hsys : MessageBuffer.is_system_message text = false) :
    ((⟨timeout, [⟨"privmsg", [target, text], ts⟩]⟩ : MessageBuffer).purge now).heap
      = [⟨"privmsg", [target, noticeText timeout 1], now⟩] ∧
    (purgeGo (now - timeout) 1 [⟨"privmsg", [target, text], ts⟩] [] []).removed
      = [⟨"privmsg", [target, text], ts⟩] ∧
    (⟨timeout, [⟨"privmsg", [target, text], ts⟩]⟩ : MessageBuffer).pop now
      = .ok (some ⟨"privmsg", [target, noticeText timeout 1], now⟩, ⟨timeout, []⟩) := by
  have hnotgt : ¬ ((⟨"privmsg", [target, text], ts⟩ : Message).timestamp > now - timeout) := by
    dsimp only
    intro hc
    linarith
  have hnjoin : ¬ ((⟨"privmsg", [target, text], ts⟩ : Message).command ∈ (["join"] : List String)) := by
    simp
  have hpop1 : heappop Message.lt [(⟨"privmsg", [target, text], ts⟩ : Message)]
      = some (⟨"privmsg", [target, text], ts⟩, []) := rfl
  have hloop : purgeGo (now - timeout) 1 [⟨"privmsg", [target, text], ts⟩] [] []
      = ⟨[], [⟨"privmsg", [target, text], ts⟩], [(target, 1)], none⟩ := by
    rw [show (1 : Nat) = 0 + 1 from rfl, purgeGo, if_neg hnotgt, if_neg hnjoin, hpop1]
    dsimp only
    rw [if_pos (by simp)]
    rw [if_neg (by simp [hsys])]
    rfl
  have hpurge : (⟨timeout, [⟨"privmsg", [target, text], ts⟩]⟩ : MessageBuffer).purge now
      = ⟨timeout, [⟨"privmsg", [target, noticeText timeout 1], now⟩]⟩ := by
    unfold MessageBuffer.purge
    dsimp only
    simp only [List.length_singleton]
    rw [hloop]
    rfl
  refine ⟨by rw [hpurge], hloop ▸ rfl, ?_⟩
  show (let b2 := if ts < now - timeout then
        (⟨timeout, [⟨"privmsg", [target, text], ts⟩]⟩ : MessageBuffer).purge now
      else ⟨timeout, [⟨"privmsg", [target, text], ts⟩]⟩;
    match heappop Message.lt b2.heap with
    | none => (.ok (none, b2) : Except PyError (Option Message × MessageBuffer))
    | some (x, h) => .ok (some x, ⟨b2.timeout, h⟩))
    = .ok (some ⟨"privmsg", [target, noticeText timeout 1], now⟩, ⟨timeout, []⟩)
  rw [if_pos (show ts < now - timeout by linarith), hpurge]
  rfl

/-- Witness for C3 (amended) at `timeout = -1`, `now = 5`. -/
theorem C3_witness :
    ((⟨-1, [⟨"privmsg", [['#', 'b'], ['h', 'i']], 3⟩]⟩ : MessageBuffer).purge 5).heap
      = [⟨"privmsg", [['#', 'b'], noticeText (-1) 1], 5⟩] ∧
    (purgeGo ((5 : ℚ) - (-1)) 1 [⟨"privmsg", [['#', 'b'], ['h', 'i']], 3⟩] [] []).removed
      = [⟨"privmsg", [['#', 'b'], ['h', 'i']], 3⟩] ∧
    (⟨-1, [⟨"privmsg", [['#', 'b'], ['h', 'i']], 3⟩]⟩ : MessageBuffer).pop 5
      = .ok (some ⟨"privmsg", [['#', 'b'], noticeText (-1) 1], 5⟩, ⟨-1, []⟩) :=
  C3_amended_negative_timeout_purges (-1) 5 3 ['#', 'b'] ['h', 'i']
    (by norm_num) (by norm_num) (by decide)

/-- Claim C10: when the purge loop pops a stale privmsg/privnotice whose
argument list does not unpack into exactly two elements, it pushes that
very message back (unchanged, original timestamp included) and returns at
once: the purge synthesizes no skip-notices at all in that pass — even for
targets whose removed lines had already been counted — and the final queue
holds exactly the original messages minus the removed ones. -/
theorem C10_malformed_abort (now : ℚ) (b : MessageBuffer) (M : Message)
    (hab : (purgeGo (now - b.timeout) b.heap.length b.heap [] []).aborted = some M) :
    b.purge now = ⟨b.timeout, (purgeGo (now - b.timeout) b.heap.length b.heap [] []).heap⟩ ∧
    M ∈ (b.purge now).heap ∧
    (M.command ∈ ["privmsg", "privnotice"]) ∧
    (∀ target text, M.arguments ≠ [target, text]) ∧
    ((purgeGo (now - b.timeout) b.heap.length b.heap [] []).removed ++
      (b.purge now).heap).Perm b.heap := by
  obtain ⟨hfam, hargs, hmem⟩ :=
    purgeGo_abort (now - b.timeout) b.heap.length b.heap [] [] M hab
  have heq := purge_eq_of_aborted b now M hab
  refine ⟨heq, ?_, hfam, hargs, ?_⟩
  · rw [heq]
    exact hmem
  · rw [heq]
    have := purgeGo_perm (now - b.timeout) b.heap.length b.heap [] []
    simpa using this

/-- Witness for C10: a stale well-formed privmsg to `#a` is popped and
counted, then a stale one-argument privmsg aborts the pass — the
malformed message is re-pushed with its original timestamp and no notice
for `#a` is synthesized. -/
theorem C10_witness :
    (⟨10, [⟨"privmsg", [['#', 'a'], ['x']], 0⟩, ⟨"privmsg", [['o']], 1⟩]⟩ : MessageBuffer).purge 100
      = ⟨10, (purgeGo ((100 : ℚ) - 10) 2
          [⟨"privmsg", [['#', 'a'], ['x']], 0⟩, ⟨"privmsg", [['o']], 1⟩] [] []).heap⟩ ∧
    (⟨"privmsg", [['o']], 1⟩ : Message) ∈
      ((⟨10, [⟨"privmsg", [['#', 'a'], ['x']], 0⟩, ⟨"privmsg", [['o']], 1⟩]⟩ : MessageBuffer).purge 100).heap ∧
    ((⟨"privmsg", [['o']], 1⟩ : Message).command ∈ ["privmsg", "privnotice"]) ∧
    (∀ target text, (⟨"privmsg", [['o']], 1⟩ : Message).arguments ≠ [target, text]) ∧
    ((purgeGo ((100 : ℚ) - 10) 2
        [⟨"privmsg", [['#', 'a'], ['x']], 0⟩, ⟨"privmsg", [['o']], 1⟩] [] []).removed ++
      ((⟨10, [⟨"privmsg", [['#', 'a'], ['x']], 0⟩, ⟨"privmsg", [['o']], 1⟩]⟩ : MessageBuffer).purge 100).heap).Perm
      [⟨"privmsg", [['#', 'a'], ['x']], 0⟩, ⟨"privmsg", [['o']], 1⟩] :=
  C10_malformed_abort 100
    ⟨10, [⟨"privmsg", [['#', 'a'], ['x']], 0⟩, ⟨"privmsg", [['o']], 1⟩]⟩
    ⟨"privmsg", [['o']], 1⟩ (by decide)

/-- Claim C2: for every purge pass (no malformed-unpack abort) in which
exactly `k > 0` stale non-system privmsg/privnotice messages addressed to
target `T` are removed, the notices pushed back contain exactly one
message for `T`: a privmsg with text
`"-- Message lags over <timeout> seconds. Skipping <k> line(s).."`
(`noticeText`, the timeout `%f`-formatted and `k` `%d`-formatted) and
timestamp equal to the current time; a target `T2` with zero removed lines
gets no notice.  The queue afterwards consists (as a multiset) of the
surviving heap plus those notices, and removed plus surviving equals the
original queue. -/
theorem C2_purge_notice_exact (now timeout : ℚ) (heap : List Message) (T T2 : Bytes)
    (k : Nat)
    (hab : (purgeGo (now - timeout) heap.length heap [] []).aborted = none)
    (hk : countFor T (purgeGo (now - timeout) heap.length heap [] []).removed = k)
    (hkpos : 0 < k)
    (hz : countFor T2 (purgeGo (now - timeout) heap.length heap [] []).removed = 0) :
    ((purgeNotices now timeout (purgeGo (now - timeout) heap.length heap [] []).counts).filter
        (fun m => decide (m.arguments.getD 0 [] = T)))
      = [⟨"privmsg", [T, noticeText timeout k], now⟩] ∧
    ((purgeNotices now timeout (purgeGo (now - timeout) heap.length heap [] []).counts).filter
        (fun m => decide (m.arguments.getD 0 [] = T2)))
      = [] ∧
    ((⟨timeout, heap⟩ : MessageBuffer).purge now).heap.Perm
      ((purgeGo (now - timeout) heap.length heap [] []).heap ++
        purgeNotices now timeout (purgeGo (now - timeout) heap.length heap [] []).counts) ∧
    ((purgeGo (now - timeout) heap.length heap [] []).removed ++
      (purgeGo (now - timeout) heap.length heap [] []).heap).Perm heap := by
  obtain ⟨hc1, hc2, hc3⟩ :=
    purgeGo_counts (now - timeout) heap.length heap [] [] (fun _ => rfl) (by simp) (by simp)
  refine ⟨?_, ?_, ?_, ?_⟩
  · rw [purgeNotices_filter now timeout _ T, counts_filter_char _ T hc2 hc3, hc1 T, hk,
      if_neg (by omega)]
    rfl
  · rw [purgeNotices_filter now timeout _ T2, counts_filter_char _ T2 hc2 hc3, hc1 T2, hz,
      if_pos rfl]
    rfl
  · rw [purge_eq_of_not_aborted ⟨timeout, heap⟩ now hab]
    exact foldl_heappush_perm Message.lt _ _
  · have := purgeGo_perm (now - timeout) heap.length heap [] []
    simpa using this

/-- Witness for C2: one stale privmsg to `#a`, none to `#b`; the pass
yields exactly one notice to `#a` with count 1, and none to `#b`. -/
theorem C2_witness :
    ((purgeNotices 100 10 (purgeGo ((100 : ℚ) - 10) 1
        [⟨"privmsg", [['#', 'a'], ['h', 'i']], 0⟩] [] []).counts).filter
        (fun m => decide (m.arguments.getD 0 [] = ['#', 'a'])))
      = [⟨"privmsg", [['#', 'a'], noticeText 10 1], 100⟩] ∧
    ((purgeNotices 100 10 (purgeGo ((100 : ℚ) - 10) 1
        [⟨"privmsg", [['#', 'a'], ['h', 'i']], 0⟩] [] []).counts).filter
        (fun m => decide (m.arguments.getD 0 [] = ['#', 'b'])))
      = [] ∧
    ((⟨10, [⟨"privmsg", [['#', 'a'], ['h', 'i']], 0⟩]⟩ : MessageBuffer).purge 100).heap.Perm
      ((purgeGo ((100 : ℚ) - 10) 1 [⟨"privmsg", [['#', 'a'], ['h', 'i']], 0⟩] [] []).heap ++
        purgeNotices 100 10 (purgeGo ((100 : ℚ) - 10) 1
          [⟨"privmsg", [['#', 'a'], ['h', 'i']], 0⟩] [] []).counts) ∧
    ((purgeGo ((100 : ℚ) - 10) 1 [⟨"privmsg", [['#', 'a'], ['h', 'i']], 0⟩] [] []).removed ++
      (purgeGo ((100 : ℚ) - 10) 1 [⟨"privmsg", [['#', 'a'], ['h', 'i']], 0⟩] [] []).heap).Perm
      [⟨"privmsg", [['#', 'a'], ['h', 'i']], 0⟩] :=
  C2_purge_notice_exact 100 10 [⟨"privmsg", [['#', 'a'], ['h', 'i']], 0⟩] ['#', 'a'] ['#', 'b']
    1 (by decide) (by decide) (by decide) (by decide)

/-- Claim C4: synthetic skip-notices carry the `--` marker, so
`is_system_message` classifies them as system messages; the purge loop's
counts only ever count non-system messages (`countFor` excludes them by
definition); consequently purging twice in a row (same current time,
positive timeout, no malformed abort) produces no duplicate notices — the
second purge is the identity. -/
theorem C4_system_notices_idempotent :
    (∀ (timeout : ℚ) (k : Nat),
      MessageBuffer.is_system_message (noticeText timeout k) = true) ∧
    (∀ (stale : ℚ) (fuel : Nat) (heap : List Message) (T : Bytes),
      lookupD (purgeGo stale fuel heap [] []).counts T
        = countFor T (purgeGo stale fuel heap [] []).removed) ∧
    (∀ (now : ℚ) (b : MessageBuffer), 0 < b.timeout →
      (purgeGo (now - b.timeout) b.heap.length b.heap [] []).aborted = none →
      (b.purge now).purge now = b.purge now) := by
  refine ⟨fun timeout k => rfl, ?_, ?_⟩
  · intro stale fuel heap T
    exact (purgeGo_counts stale fuel heap [] [] (fun _ => rfl) (by simp) (by simp)).1 T
  · intro now b hpos hab
    have hpurge := purge_eq_of_not_aborted b now hab
    have htimeout : (b.purge now).timeout = b.timeout := by rw [hpurge]
    apply purge_of_break
    intro m t hmt
    rw [htimeout]
    have hhead : (b.purge now).heap.head? = some m := by rw [hmt]; rfl
    rw [hpurge] at hhead
    have hhead2 : ((purgeNotices now b.timeout
        (purgeGo (now - b.timeout) b.heap.length b.heap [] []).counts).foldl
        (heappush Message.lt)
        (purgeGo (now - b.timeout) b.heap.length b.heap [] []).heap).head? = some m := hhead
    rcases foldl_heappush_head Message.lt _ _ m hhead2 with hmN | hmH
    · left
      rw [purgeNotices_timestamp now b.timeout _ m hmN]
      linarith
    · rcases purgeGo_post (now - b.timeout) b.heap.length b.heap [] [] (le_refl _) with
        ⟨M, habort⟩ | hempty | ⟨m2, t2, hheap2, hprop⟩
      · rw [hab] at habort
        exact absurd habort (by simp)
      · rw [hempty] at hmH
        exact absurd hmH (by simp)
      · rw [hheap2] at hmH
        have hm2 : m2 = m := by simpa using hmH
        rw [hm2] at hprop
        exact hprop

/-- Witness for C4: one stale privmsg is aggregated by the first purge;
the second purge at the same time is the identity. -/
theorem C4_witness :
    MessageBuffer.is_system_message (noticeText 10 1) = true ∧
    ((⟨10, [⟨"privmsg", [['#', 'a'], ['h', 'i']], 0⟩]⟩ : MessageBuffer).purge 100).purge 100
      = (⟨10, [⟨"privmsg", [['#', 'a'], ['h', 'i']], 0⟩]⟩ : MessageBuffer).purge 100 :=
  ⟨C4_system_notices_idempotent.1 10 1,
    C4_system_notices_idempotent.2.2 100 ⟨10, [⟨"privmsg", [['#', 'a'], ['h', 'i']], 0⟩]⟩
      (by norm_num) (by decide)⟩

/-- Per-tick dispatch properties of `pop_buffer`: at most one message is
handed to `process_message`; a dispatched privmsg to a channel target is
only dispatched when that channel is joined; a head privmsg to a
non-joined channel leaves the state untouched and dispatches nothing. -/
theorem pop_buffer_spec (st : BotState) (now : ℚ) :
    (pop_buffer st now).dispatched.length ≤ 1 ∧
    (∀ m target text, m ∈ (pop_buffer st now).dispatched →
      m.command = "privmsg" → m.arguments = [target, text] →
      is_channel target = true → target ∈ st.channels) ∧
    (∀ m target text, st.buffer.heap.head? = some m →
      m.command = "privmsg" → m.arguments = [target, text] →
      is_channel target = true → target ∉ st.channels →
      pop_buffer st now = ⟨st, [], false⟩) := by
  cases hheap : st.buffer.heap with
  | nil =>
    have hpb : pop_buffer st now = ⟨st, [], false⟩ := by
      unfold pop_buffer
      rw [hheap]
    rw [hpb]
    exact ⟨by simp, by intro m target text hm; simp at hm, fun _ _ _ _ _ _ _ _ => rfl⟩
  | cons message t =>
    unfold pop_buffer
    rw [hheap]
    dsimp only
    set c := (if message.command = "privmsg" then
        match message.arguments with
        | [target, _] => is_channel target && !(st.channels.contains target)
        | _ => true
      else false) with hc
    by_cases hcb : c = true
    · rw [if_pos hcb]
      exact ⟨by simp, by intro m target text hm; simp at hm, fun _ _ _ _ _ _ _ _ => rfl⟩
    · rw [if_neg hcb]
      have hmem : ∀ m target text, m = message → m.command = "privmsg" →
          m.arguments = [target, text] → is_channel target = true →
          target ∈ st.channels := by
        intro m target text hme hcmd hargs hchan
        rw [hme] at hcmd hargs
        have hceq : c = (is_channel target && !(st.channels.contains target)) := by
          rw [hc, if_pos hcmd, hargs]
        rw [hceq, hchan] at hcb
        simpa using hcb
      have hgate : ∀ m target text, (message :: t).head? = some m →
          m.command = "privmsg" → m.arguments = [target, text] →
          is_channel target = true → target ∉ st.channels → False := by
        intro m target text hh hcmd hargs hchan hnot
        exact hnot (hmem m target text (by have := hh; simp at this; exact this.symm)
          hcmd hargs hchan)
      have hpart2 : ∀ (res : TickResult), res.dispatched = [message] →
          ∀ m target text, m ∈ res.dispatched →
          m.command = "privmsg" → m.arguments = [target, text] →
          is_channel target = true → target ∈ st.channels := by
        intro res hres m target text hm hcmd hargs hchan
        rw [hres] at hm
        exact hmem m target text (by simpa using hm) hcmd hargs hchan
      split
      · exact ⟨by simp, by intro m target text hm; simp at hm,
          fun m target text hh hcmd hargs hchan hnot =>
            absurd (hgate m target text hh hcmd hargs hchan hnot) not_false⟩
      · split
        · exact ⟨by simp, hpart2 _ rfl,
            fun m target text hh hcmd hargs hchan hnot =>
              absurd (hgate m target text hh hcmd hargs hchan hnot) not_false⟩
        · split
          · exact ⟨by simp, hpart2 _ rfl,
              fun m target text hh hcmd hargs hchan hnot =>
                absurd (hgate m target text hh hcmd hargs hchan hnot) not_false⟩
          · exact ⟨by simp, hpart2 _ rfl,
              fun m target text hh hcmd hargs hchan hnot =>
                absurd (hgate m target text hh hcmd hargs hchan hnot) not_false⟩

/-- Claim C6 (amended): in every tick of the dispatch loop at most one
message is dispatched to the connection; the channel-membership gate
covers only `privmsg` messages: no *privmsg* whose target is a channel
absent from the current membership set is ever dispatched, and such a
privmsg at the head of the queue is left in place (state unchanged,
nothing dispatched), so the tick stops until a later tick finds the
channel joined.  Messages of other commands — including `privnotice` —
are not gated (see the counterexample above the claim's record). -/
theorem C6_dispatch_gating (st : BotState) (now : ℚ) :
    (flood_control st now).dispatched.length ≤ 1 ∧
    (∀ m target text, m ∈ (flood_control st now).dispatched →
      m.command = "privmsg" → m.arguments = [target, text] →
      is_channel target = true → target ∈ st.channels) ∧
    (∀ m target text, st.buffer.heap.head? = some m →
      m.command = "privmsg" → m.arguments = [target, text] →
      is_channel target = true → target ∉ st.channels →
      flood_control st now = ⟨st, [], false⟩) := by
  unfold flood_control
  split
  · exact ⟨by simp, by intro m target text hm; simp at hm,
      fun m target text _ _ _ _ _ => rfl⟩
  · split
    · exact pop_buffer_spec st now
    · next hlen =>
      exact ⟨by simp, by intro m target text hm; simp at hm,
        fun m target text _ _ _ _ _ => rfl⟩

/-- Witness for C6: a connected bot whose buffer head is a privmsg to the
unjoined channel `#c` makes no progress: nothing dispatched, state
unchanged. -/
theorem C6_witness :
    flood_control ⟨⟨10, [⟨"privmsg", [['#', 'c'], ['h', 'i']], 0⟩]⟩, 0, [], true⟩ 5
      = ⟨⟨⟨10, [⟨"privmsg", [['#', 'c'], ['h', 'i']], 0⟩]⟩, 0, [], true⟩, [], false⟩ :=
  (C6_dispatch_gating ⟨⟨10, [⟨"privmsg", [['#', 'c'], ['h', 'i']], 0⟩]⟩, 0, [], true⟩ 5).2.2
    ⟨"privmsg", [['#', 'c'], ['h', 'i']], 0⟩ ['#', 'c'] ['h', 'i']
    rfl rfl rfl (by decide) (by decide)

/-- Counterexample for C6 as stated: the channel-membership gate in
`pop_buffer` applies only to `privmsg` — a `privnotice` addressed to the
channel `#c`, which is absent from the (empty) membership set, passes the
gate and is dispatched by the very next tick. -/
theorem C6_counterexample :
    (flood_control ⟨⟨10, [⟨"privnotice", [['#', 'c'], ['h', 'i']], 0⟩]⟩, 0, [], true⟩ 5).dispatched
      = [⟨"privnotice", [['#', 'c'], ['h', 'i']], 0⟩] ∧
    is_channel ['#', 'c'] = true ∧
    ['#', 'c'] ∉ (⟨⟨10, [⟨"privnotice", [['#', 'c'], ['h', 'i']], 0⟩]⟩, 0, [], true⟩ : BotState).channels := by
  refine ⟨by decide, by decide, by decide⟩
